import Mathlib

/-!
# Verification of the Sora-Studio job-queue engine (`src/sora_core/queue.py`)

This file shallowly embeds the `QueueManager` scheduler of
`src/sora_core/queue.py` together with the data model of
`src/sora_core/models.py`, and proves or refutes the specification claims
about it.

Modelling conventions:
* Python `dict`s keyed by shot id become insertion-ordered association
  lists with overwrite-on-existing-key semantics (`dinsert`).
* The `queue.PriorityQueue` used by the scheduler is, per CPython, a list
  managed by `heapq.heappush` / `heapq.heappop`; those two stdlib
  functions are embedded faithfully below (`heappush`, `heappop`),
  including their exact tie-handling behaviour. Item comparison uses only
  `QueueItem.__lt__`, i.e. `priority <` (queue.py line 27).
* Since Python aliases one `QueueItem` object from `_items`, `_queue`,
  `_active` and the worker threads, mutable item state lives solely in the
  `items` map here; the heap stores `(priority, id)` snapshots (priority
  is immutable while an entry is on the heap: `enqueue` fixes it at
  insertion and `reorder` rebuilds the heap from scratch) and workers
  re-read the item through its id.
* The threaded worker loop is embedded as a small-step event machine:
  each lock-protected region or blocking call of `_worker_loop` is one
  atomic event (`Ev.wDequeue` = `self._queue.get`, `Ev.wAcquire` =
  `self._semaphore.acquire`, `Ev.wMark` = the mark-active lock block,
  `Ev.wRun` = the cancellation check / `worker_factory` invocation,
  `Ev.wCommit` = the success-or-except commit block plus the `finally`
  release). `stop()`/restart cycling is outside the scope of the claims
  and is not an event. Two ghost fields record observations the claims
  need: `execCalls` logs every id passed to the executor callback, and
  `issued` counts every permit the counting semaphore has ever had
  (its construction value plus every `release()` from `set_parallel`).
* Timing-only constructs (the `timeout=0.5` poll, `_apply_rate_limit`'s
  sleep, the `progress`/`status_text` display fields) have no effect on
  any claimed property and are omitted.
* Persistence: `_save_state` serialises to JSON and `_load_state` parses
  it inside `try/except`. The file contents are embedded structurally:
  `FileContent.unparseable` is a file on which `json.loads` raises, and a
  `RawItem.bad` is an item entry on which `Shot(**shot_data)`/key access
  raises; the catch-all handler keeps whatever state had been built up to
  that point, exactly as the Python `except` does.
-/

namespace SoraQueue

/-- `sora_core.models.Shot` (all fields serialised by `_save_state`). -/
structure Shot where
  id : String
  model : String
  width : Int
  height : Int
  duration_s : Int
  prompt : String
  ref_images : List String
  status : String
  job_id : Option String
  output_path : Option String
  meta : List (String × String)
  created_at : String
deriving DecidableEq, Repr, Inhabited

/-- `sora_core.queue.QueueItem`: priority, shot and the per-item
cooperative cancellation `Event` (a thread-safe boolean). The
timing/display-only fields `profile`, `progress`, `status_text` are
omitted (see the header). -/
structure QueueItem where
  priority : Int
  shot : Shot
  cancel_event : Bool
deriving DecidableEq, Repr, Inhabited

/-- One entry of the `heapq` list underlying `PriorityQueue`: the
priority it was pushed with, and the id through which the worker
re-reads the aliased `QueueItem`. `QueueItem.__lt__` compares only
`priority`, which is what every `heapq` comparison uses. -/
structure HEntry where
  pri : Int
  id : String
deriving DecidableEq, Repr, Inhabited

/-! ## CPython `heapq` (Lib/heapq.py), specialised to `HEntry` lists -/

/-- `heap[i]` (reads are always in bounds in the algorithm). -/
def lget (l : List HEntry) (i : Nat) : HEntry := l.getD i default

/-- `heap[i] = x`. -/
def lset (l : List HEntry) (i : Nat) (x : HEntry) : List HEntry := l.set i x

/-- The loop body count of `_siftdown` is bounded by `pos` itself (each
iteration moves to `(pos-1)/2 < pos`), so structural recursion on a
`fuel ≥ pos` computes the loop exactly; when fuel runs out, `pos = 0`,
which is precisely the loop's `pos > startpos` exit. -/
def siftdownF : Nat → List HEntry → Nat → Nat → HEntry → List HEntry
  | 0, l, _, pos, ni => lset l pos ni
  | fuel + 1, l, startpos, pos, ni =>
    if startpos < pos then
      let parentpos := (pos - 1) / 2
      let parent := lget l parentpos
      if ni.pri < parent.pri then
        siftdownF fuel (lset l pos parent) startpos parentpos ni
      else
        lset l pos ni
    else
      lset l pos ni

/-- `heapq._siftdown(heap, startpos, pos)` with `newitem = heap[pos]`
passed explicitly (the loop never reads position `pos`, so passing the
value is equivalent to pre-writing it). -/
def siftdown (l : List HEntry) (startpos pos : Nat) (ni : HEntry) :
    List HEntry :=
  siftdownF pos l startpos pos ni

/-- The loop body count of `_siftup` is bounded by `len(heap) - pos`
(each iteration moves `pos` to a child), so structural recursion on a
`fuel ≥ len - pos` computes the loop exactly; when fuel runs out,
`2*pos+1 ≥ len`, which is precisely the loop's exit condition. -/
def siftupF : Nat → List HEntry → Nat → Nat → HEntry → List HEntry
  | 0, l, startpos, pos, ni => siftdown l startpos pos ni
  | fuel + 1, l, startpos, pos, ni =>
    if 2 * pos + 1 < l.length then
      let c0 := 2 * pos + 1
      let childpos :=
        if c0 + 1 < l.length ∧ ¬ (lget l c0).pri < (lget l (c0 + 1)).pri
        then c0 + 1 else c0
      siftupF fuel (lset l pos (lget l childpos)) startpos childpos ni
    else
      siftdown l startpos pos ni

/-- `heapq._siftup(heap, pos)` with `newitem = heap[pos]` passed
explicitly: bubble the hole down to a leaf always taking the smaller
child, then restore with `_siftdown(heap, startpos, leafpos)` (CPython
calls this with `startpos = pos = 0` from `heappop`). -/
def siftup (l : List HEntry) (startpos pos : Nat) (ni : HEntry) :
    List HEntry :=
  siftupF l.length l startpos pos ni

/-- `heapq.heappush`. -/
def heappush (h : List HEntry) (e : HEntry) : List HEntry :=
  siftdown (h ++ [e]) 0 h.length e

/-- `heapq.heappop`; `none` models the `IndexError` on an empty heap
(`PriorityQueue.get` blocks instead, so the worker event is simply not
enabled then). CPython pops the last element; if the remainder is
nonempty it returns the old root, writes the popped element at index 0
and calls `_siftup(heap, 0)` — on a singleton the remainder is empty and
the popped element (= the root) is returned directly. -/
def heappop (h : List HEntry) : Option (HEntry × List HEntry) :=
  match h with
  | [] => none
  | [a] => some (a, [])
  | a :: b :: t =>
    let lastelt := lget (a :: b :: t) ((a :: b :: t).length - 1)
    some (a, siftup (lset ((a :: b :: t).dropLast) 0 lastelt) 0 0 lastelt)

/-- Pop every element (`fuel` = heap size for termination). -/
def popAllFuel : Nat → List HEntry → List HEntry
  | 0, _ => []
  | fuel + 1, h =>
    match heappop h with
    | none => []
    | some (e, h') => e :: popAllFuel fuel h'

/-- The sequence in which workers drain a fixed heap (the order of
successive `self._queue.get()` results with no concurrent `put`). -/
def popAll (h : List HEntry) : List HEntry := popAllFuel h.length h

/-! ## Stable sort by an integer key

`sorted(..., key=...)` in `_save_state`/`get_all_items` is Timsort:
stable, ordered by the key. An insertion sort that inserts each later
element after the equal-key elements already placed has exactly that
specification. -/

/-- Insert `a` after all already-placed elements of key ≤ its own. -/
def insAfter {α : Type} (key : α → Int) (a : α) : List α → List α
  | [] => [a]
  | b :: l => if key b ≤ key a then b :: insAfter key a l else a :: b :: l

/-- Stable sort by `key` (model of Python `sorted(l, key=key)`). -/
def sortByKey {α : Type} (key : α → Int) (l : List α) : List α :=
  l.foldl (fun acc x => insAfter key x acc) []

/-! ## Scheduler state and operations -/

/-- Insertion-ordered dict write `d[k] = v`. -/
def dinsert (l : List (String × QueueItem)) (k : String) (v : QueueItem) :
    List (String × QueueItem) :=
  if (l.lookup k).isSome then
    l.map (fun p => if p.1 = k then (k, v) else p)
  else l ++ [(k, v)]

/-- Local worker-thread state: which line of `_worker_loop` the thread is
at, holding which dequeued entry. -/
inductive WPhase where
  | idle : WPhase
  | holding : HEntry → WPhase
  | acquired : HEntry → WPhase
  | marked : HEntry → WPhase
  | executing : HEntry → WPhase
deriving DecidableEq, Repr, Inhabited

/-- The serialisable part of one saved item (`_save_state` writes
`priority` plus every `Shot` field; `bad` is an entry on which
reconstruction raises). -/
inductive RawItem where
  | good : Int → Shot → RawItem
  | bad : RawItem
deriving DecidableEq, Repr, Inhabited

/-- The parsed durable-state JSON document. `Option` fields model
`data.get(key, default)`. -/
structure RawData where
  parallel_jobs : Option Int
  items : List RawItem
  completed : Option (List String)
  failed : Option (List String)
deriving DecidableEq, Repr, Inhabited

/-- A durable-state file as seen by `_load_state`. -/
inductive FileContent where
  | unparseable : FileContent
  | parsed : RawData → FileContent
deriving DecidableEq, Repr, Inhabited

/-- The in-memory state of one `QueueManager` (plus the two ghost
observation fields described in the header). `active` stores the key set
of `self._active` (the mapped values are aliases of `items` entries). -/
structure QState where
  parallel_jobs : Int
  semPermits : Nat
  items : List (String × QueueItem)
  queue : List HEntry
  active : List String
  completed : List String
  failed : List String
  running : Bool
  workers : List WPhase
  execCalls : List String
  issued : Nat
deriving DecidableEq, Repr, Inhabited

/-- Status of a tracked shot (`self._items[id].shot.status`). -/
def statusOf (s : QState) (id : String) : Option String :=
  (s.items.lookup id).map fun it => it.shot.status

/-- Rewrite one tracked item's shot status in place. -/
def setStatus (items : List (String × QueueItem)) (id : String)
    (st : String) : List (String × QueueItem) :=
  items.map fun p =>
    if p.1 = id then (p.1, { p.2 with shot := { p.2.shot with status := st } })
    else p

/-- `QueueManager.enqueue` (queue.py 62–81): duplicate ids are a no-op,
otherwise the shot is stamped `"queued"`, tracked, and pushed. -/
def enqueue (s : QState) (shot : Shot) (priority : Int) : QState :=
  if (s.items.lookup shot.id).isSome then s
  else
    let shot' := { shot with status := "queued" }
    let item : QueueItem := ⟨priority, shot', false⟩
    { s with
      items := dinsert s.items shot'.id item
      queue := heappush s.queue ⟨priority, shot'.id⟩ }

/-- `QueueManager.cancel` (queue.py 97–111): sets the cancellation flag
and stamps `"cancelled"` for any tracked id; returns whether it was
found. -/
def cancel (s : QState) (id : String) : QState × Bool :=
  if (s.items.lookup id).isSome then
    ({ s with
        items := s.items.map fun p =>
          if p.1 = id then
            (p.1, { p.2 with
                      cancel_event := true
                      shot := { p.2.shot with status := "cancelled" } })
          else p }, true)
  else (s, false)

/-- `QueueManager.reorder` (queue.py 83–95): rebuild the priority queue
from scratch out of the argument ids that are tracked and not active,
assigning `priority := position`. -/
def reorder (s : QState) (shot_ids : List String) : QState :=
  let selected := (shot_ids.enum).filter fun p =>
    (s.items.lookup p.2).isSome ∧ p.2 ∉ s.active
  { s with
    items := selected.foldl
      (fun its p => its.map fun q =>
        if q.1 = p.2 then (q.1, { q.2 with priority := (p.1 : Int) }) else q)
      s.items
    queue := selected.foldl (fun q p => heappush q ⟨(p.1 : Int), p.2⟩) [] }

/-- `QueueManager.set_parallel` (queue.py 49–60): clamp to ≥ 1; when the
value grows, `release()` the semaphore once per unit of growth (an
unbounded `threading.Semaphore`: `release` never fails, and nothing is
ever reclaimed on a decrease). -/
def set_parallel (s : QState) (n : Int) : QState :=
  let old := s.parallel_jobs
  let newP := max 1 n
  let diff := newP - old
  { s with
    parallel_jobs := newP
    semPermits := if 0 < diff then s.semPermits + diff.toNat else s.semPermits
    issued := if 0 < diff then s.issued + diff.toNat else s.issued }

/-- `QueueManager.start` (queue.py 145–154): idempotent; spawns
`range(self.parallel_jobs)` worker threads. -/
def start (s : QState) : QState :=
  if s.running then s
  else
    { s with
      running := true
      workers := s.workers ++ List.replicate s.parallel_jobs.toNat .idle }

/-- One row of `get_all_items`: `(shot_id, shot, priority, status)`. -/
structure SnapRow where
  id : String
  shot : Shot
  priority : Int
  shown : String
deriving DecidableEq, Repr, Inhabited

/-- `QueueManager.get_all_items` (queue.py 113–119): every tracked item
with its display status (`"active"` overriding while in `_active`),
sorted by priority. -/
def get_all_items (s : QState) : List SnapRow :=
  sortByKey (fun r => r.priority)
    (s.items.map fun p =>
      ⟨p.1, p.2.shot, p.2.priority,
        if p.1 ∈ s.active then "active" else p.2.shot.status⟩)

/-- The document `_save_state` (queue.py 237–271) writes: the current
concurrency level, every tracked item (any state) sorted by priority
with all shot fields, and the two terminal id lists. -/
def saveData (s : QState) : RawData :=
  { parallel_jobs := some s.parallel_jobs
    items := (sortByKey (fun it => it.priority) (s.items.map (·.2))).map
      fun it => .good it.priority it.shot
    completed := some s.completed
    failed := some s.failed }

/-- A terminal saved status (`_load_state`'s skip set, queue.py 287). -/
def isTerminal (st : String) : Bool :=
  st = "completed" || st = "cancelled" || st = "failed"

/-- The item loop of `_load_state` (queue.py 283–298): re-enqueue each
non-terminal entry with status reset to `"queued"`; a `bad` entry raises
into the catch-all handler, keeping the state built so far. -/
def loadItems : List RawItem → QState → QState
  | [], s => s
  | .bad :: _, s => s
  | .good pri shot :: rest, s =>
    if isTerminal shot.status then loadItems rest s
    else
      let shot' := { shot with status := "queued" }
      loadItems rest
        { s with
          items := dinsert s.items shot'.id ⟨pri, shot', false⟩
          queue := heappush s.queue ⟨pri, shot'.id⟩ }

/-- `QueueManager._load_state` (queue.py 273–302): on an unparseable
file the exception is caught before any assignment; otherwise the three
scalar fields are restored (with defaults) and the item loop runs. -/
def loadState (fc : FileContent) (s : QState) : QState :=
  match fc with
  | .unparseable => s
  | .parsed d =>
    loadItems d.items
      { s with
        parallel_jobs := d.parallel_jobs.getD 1
        completed := d.completed.getD []
        failed := d.failed.getD [] }

/-- `QueueManager.__init__` (queue.py 31–47): the semaphore is built
from the constructor argument, then an existing state file is loaded
(`some fc` = the file exists with content `fc`). -/
def initQM (parallelArg : Int) (file : Option FileContent) : QState :=
  let s0 : QState :=
    { parallel_jobs := parallelArg
      semPermits := parallelArg.toNat
      items := []
      queue := []
      active := []
      completed := []
      failed := []
      running := false
      workers := []
      execCalls := []
      issued := parallelArg.toNat }
  match file with
  | none => s0
  | some fc => loadState fc s0

/-! ## The worker-loop event machine

`_worker_loop` (queue.py 164–220) interleaved with the public mutators.
Each event is one atomic region of the source (see the header comment).
-/

/-- Remove an id from the `_active` dict
(`if item.shot.id in self._active: del ...`). -/
def aremove (l : List String) (id : String) : List String := l.erase id

/-- Insert an id into the `_active` dict key set. -/
def ainsert (l : List String) (id : String) : List String :=
  if id ∈ l then l else l ++ [id]

/-- The `except` branch of `_worker_loop` (queue.py 209–217) followed by
the `finally` release (219): the item id goes to `_failed`, its status
becomes `"failed"`, the worker slot and semaphore unit are freed. -/
def failCommit (s : QState) (w : Nat) (id : String) : QState :=
  { s with
    active := aremove s.active id
    failed := s.failed ++ [id]
    items := setStatus s.items id "failed"
    workers := s.workers.set w .idle
    semPermits := s.semPermits + 1 }

/-- The success tail of `_worker_loop` (queue.py 198–207) followed by
the `finally` release. -/
def succCommit (s : QState) (w : Nat) (id : String) : QState :=
  { s with
    active := aremove s.active id
    completed := s.completed ++ [id]
    items := setStatus s.items id "completed"
    workers := s.workers.set w .idle
    semPermits := s.semPermits + 1 }

/-- Events: the public mutators plus the atomic regions of each worker
thread `w`. `wCommit w ok` carries the executor callback's
`(success, error_msg)` outcome (`ok = false` also covers a raise). -/
inductive Ev where
  | enqueue : Shot → Int → Ev
  | cancel : String → Ev
  | reorder : List String → Ev
  | setParallel : Int → Ev
  | start : Ev
  | wDequeue : Nat → Ev
  | wAcquire : Nat → Ev
  | wMark : Nat → Ev
  | wRun : Nat → Ev
  | wCommit : Nat → Bool → Ev
deriving DecidableEq, Repr

/-- One atomic step. `none` = the event is not enabled (the thread would
be blocked, or no thread is at that program point). -/
def stepFn (e : Ev) (s : QState) : Option QState :=
  match e with
  | .enqueue sh p => some (enqueue s sh p)
  | .cancel id => some (cancel s id).1
  | .reorder ids => some (reorder s ids)
  | .setParallel n => some (set_parallel s n)
  | .start => some (start s)
  | .wDequeue w =>
    if s.running then
      match s.workers.get? w with
      | some .idle =>
        match heappop s.queue with
        | some (en, q') =>
          some { s with queue := q', workers := s.workers.set w (.holding en) }
        | none => none
      | _ => none
    else none
  | .wAcquire w =>
    match s.workers.get? w with
    | some (.holding en) =>
      if s.semPermits = 0 then none
      else some { s with
        semPermits := s.semPermits - 1
        workers := s.workers.set w (.acquired en) }
    | _ => none
  | .wMark w =>
    match s.workers.get? w with
    | some (.acquired en) =>
      if (s.items.lookup en.id).isSome then
        some { s with
          active := ainsert s.active en.id
          items := setStatus s.items en.id "processing"
          workers := s.workers.set w (.marked en) }
      else none
    | _ => none
  | .wRun w =>
    match s.workers.get? w with
    | some (.marked en) =>
      match s.items.lookup en.id with
      | some it =>
        if it.cancel_event then
          -- `raise Exception("Cancelled")` before the factory call:
          -- straight into the except/finally blocks, executor untouched.
          some (failCommit s w en.id)
        else
          some { s with
            workers := s.workers.set w (.executing en)
            execCalls := s.execCalls ++ [en.id] }
      | none => none
    | _ => none
  | .wCommit w ok =>
    match s.workers.get? w with
    | some (.executing en) =>
      some (if ok then succCommit s w en.id else failCommit s w en.id)
    | _ => none

/-- Run a whole event list. -/
def runEvents (evs : List Ev) (s : QState) : Option QState :=
  evs.foldl (fun acc e => acc.bind (stepFn e)) (some s)

/-- Reachability through the event machine. -/
inductive Reach (s0 : QState) : QState → Prop
  | refl : Reach s0 s0
  | tail {s s' : QState} (e : Ev) : Reach s0 s → stepFn e s = some s' →
      Reach s0 s'

/-! ## Concrete inputs used by counterexamples and witnesses -/

/-- A concrete shot with the given id (all payload fields fixed). -/
def mkShot (i : String) : Shot :=
  ⟨i, "m", 1, 1, 1, "p", [], "pending", none, none, [], "t"⟩

/-! ## Specification predicates -/

/-- The binary-heap order invariant of a `heapq` list: every non-root
position is ≥ its parent (in the `__lt__` key, the priority). -/
def HeapInv (h : List HEntry) : Prop :=
  ∀ i, 0 < i → i < h.length → (lget h ((i - 1) / 2)).pri ≤ (lget h i).pri

/-- Heap order everywhere except possibly on the edge from `pos`'s
parent down to `pos` (the state of the array while `_siftdown` bubbles
the hole at `pos` towards the root). -/
def EE (v : List HEntry) (pos : Nat) : Prop :=
  ∀ i, 0 < i → i < v.length → i ≠ pos →
    (lget v ((i - 1) / 2)).pri ≤ (lget v i).pri

/-- The grandparent bridge over the hole: `pos`'s parent is ≤ `pos`'s
children (holds trivially when `pos` is the root or a leaf). -/
def Bridge (v : List HEntry) (pos : Nat) : Prop :=
  0 < pos → ∀ i, i < v.length → (i - 1) / 2 = pos →
    (lget v ((pos - 1) / 2)).pri ≤ (lget v i).pri

/-- Heap order on every edge not incident to the hole at `pos` (the
state of the array during `_siftup`'s walk down to a leaf, where the
edge from `pos`'s parent into `pos` may also be violated). -/
def DA (v : List HEntry) (pos : Nat) : Prop :=
  ∀ i, 0 < i → i < v.length → i ≠ pos → (i - 1) / 2 ≠ pos →
    (lget v ((i - 1) / 2)).pri ≤ (lget v i).pri

/-- Fold `enqueue` over a list of (shot, priority) requests, starting
from a freshly constructed scheduler. -/
def enqueueAll (ps : List (Shot × Int)) : QState :=
  ps.foldl (fun s p => enqueue s p.1 p.2) (initQM 1 none)

/-- C2 counterexample state: four shots enqueued in the order
a, b, c, d, all with equal priority 0. -/
def c2state : QState :=
  enqueueAll [(mkShot "a", 0), (mkShot "b", 0), (mkShot "c", 0),
              (mkShot "d", 0)]

/-- The id a worker has marked active and not yet committed, if any. -/
def busyOf : WPhase → Option String
  | .marked en => some en.id
  | .executing en => some en.id
  | _ => none

/-- Ids of items some worker has marked active and not yet committed. -/
def busyIds (ws : List WPhase) : List String := ws.filterMap busyOf

/-- Does this worker currently hold a semaphore unit? -/
def holdsPermit : WPhase → Bool
  | .acquired _ => true
  | .marked _ => true
  | .executing _ => true
  | _ => false

/-- Number of semaphore units held by workers. -/
def holdCount (ws : List WPhase) : Nat := ws.countP holdsPermit

/-- Structural well-formedness of a scheduler state: the `_active` key
set has no duplicates and every active id belongs to some worker that is
between mark and commit; and semaphore units are conserved — free units
plus held units equal every unit the semaphore has ever had. -/
def WF (s : QState) : Prop :=
  s.active.Nodup ∧ (∀ id ∈ s.active, id ∈ busyIds s.workers) ∧
  holdCount s.workers + s.semPermits = s.issued

/-! ## Concrete traces for counterexamples and witnesses -/

/-- C1 trace: a still-pending shot is cancelled, then the single worker
picks it up. -/
def c1evs : List Ev :=
  [.start, .enqueue (mkShot "a") 0, .cancel "a",
   .wDequeue 0, .wAcquire 0, .wMark 0, .wRun 0]

/-- C4 trace: constructed with concurrency 2 and started (2 workers, 2
permits); the limit is then lowered to 1, after which both workers still
mark items active. -/
def c4evs : List Ev :=
  [.start, .enqueue (mkShot "a") 0, .enqueue (mkShot "b") 0,
   .setParallel 1, .wDequeue 0, .wAcquire 0, .wMark 0,
   .wDequeue 1, .wAcquire 1, .wMark 1]

/-- C5 trace: concurrency 1 scheduler started, two shots enqueued, the
single worker is inside the executor callback for "a", and then
`set_parallel(2)` is called. -/
def c5evs : List Ev :=
  [.start, .enqueue (mkShot "a") 0, .enqueue (mkShot "b") 1,
   .wDequeue 0, .wAcquire 0, .wMark 0, .wRun 0, .setParallel 2]

/-- The state reached by `c5evs` (checked against `runEvents` in the C5
theorem): "a" is executing on the only worker, "b" is still pending, and
`set_parallel(2)` has released an extra permit. -/
def c5mid : QState :=
  { parallel_jobs := 2
    semPermits := 1
    items :=
      [("a", ⟨0, { mkShot "a" with status := "processing" }, false⟩),
       ("b", ⟨1, { mkShot "b" with status := "queued" }, false⟩)]
    queue := [⟨1, "b"⟩]
    active := ["a"]
    completed := []
    failed := []
    running := true
    workers := [.executing ⟨0, "a"⟩]
    execCalls := ["a"]
    issued := 2 }

/-- C7 trace: the executor fails for "a"; the worker then picks up "b",
which completes. -/
def c7evs : List Ev :=
  [.start, .enqueue (mkShot "a") 0, .enqueue (mkShot "b") 1,
   .wDequeue 0, .wAcquire 0, .wMark 0, .wRun 0, .wCommit 0 false,
   .wDequeue 0, .wAcquire 0, .wMark 0, .wRun 0, .wCommit 0 true]

/-- C6 state: one tracked shot already in the terminal `"completed"`
state (as after a finished run, before `clear_completed`), not active,
with priority 5. -/
def c6state : QState :=
  { initQM 1 none with
    items := [("a", ⟨5, { mkShot "a" with status := "completed" }, false⟩)] }

/-- C3/C9 saved document: a shot that was Active ("processing") when
`_save_state` last ran. -/
def c3data : RawData :=
  { parallel_jobs := some 1
    items := [.good 0 { mkShot "a" with status := "processing" }]
    completed := some ["x"]
    failed := some ["y"] }

/-- C8 saved document: parses fine, first item entry is valid, second is
malformed (`Shot(**shot_data)` raises on it). -/
def c8data : RawData :=
  { parallel_jobs := some 1
    items := [.good 0 { mkShot "a" with status := "queued" }, .bad]
    completed := some []
    failed := some [] }

/-- A mutator as the caller sees it, with best-effort persistence: the
in-memory result together with the durable file, which the `try/except`
of `_save_state` either overwrites with the fresh document or leaves
as-is when the write raises (`writeOk = false`). -/
def mutateAndSave (op : QState → QState) (writeOk : Bool)
    (s : QState) (file : Option RawData) : QState × Option RawData :=
  let s' := op s
  (s', if writeOk then some (saveData s') else file)

/-- Sortedness by an integer key (what `sorted(..., key=...)` returns). -/
def KeySorted {α : Type} (key : α → Int) (l : List α) : Prop :=
  l.Pairwise (fun x y => key x ≤ key y)

/-- `loadItems` only ever touches `items` and `queue`. -/
theorem loadItems_scalars (l : List RawItem) (s : QState) :
    (loadItems l s).parallel_jobs = s.parallel_jobs ∧
    (loadItems l s).semPermits = s.semPermits ∧
    (loadItems l s).active = s.active ∧
    (loadItems l s).completed = s.completed ∧
    (loadItems l s).failed = s.failed ∧
    (loadItems l s).running = s.running ∧
    (loadItems l s).workers = s.workers ∧
    (loadItems l s).execCalls = s.execCalls ∧
    (loadItems l s).issued = s.issued := by
  induction l generalizing s with
  | nil => simp [loadItems]
  | cons hd tl ih =>
    cases hd with
    | bad => simp [loadItems]
    | good pri shot =>
      by_cases hterm : isTerminal shot.status = true
      · simpa [loadItems, hterm] using ih s
      · simp only [loadItems, hterm, if_false]
        exact ih _

/-! ### Properties of the stable sort -/

theorem insAfter_perm {α : Type} (key : α → Int) (a : α) (l : List α) :
    List.Perm (insAfter key a l) (a :: l) := by
  induction l with
  | nil => simp [insAfter]
  | cons b t ih =>
    simp only [insAfter]
    split
    · exact (ih.cons b).trans (List.Perm.swap a b t)
    · exact List.Perm.refl _

theorem foldl_insAfter_perm {α : Type} (key : α → Int) (l acc : List α) :
    List.Perm (l.foldl (fun acc x => insAfter key x acc) acc) (acc ++ l) := by
  induction l generalizing acc with
  | nil => simp
  | cons x t ih =>
    simp only [List.foldl_cons]
    refine (ih (insAfter key x acc)).trans ?_
    refine (List.Perm.append_right t ((insAfter_perm key x acc))).trans ?_
    exact List.perm_middle.symm.trans (by simp)

theorem sortByKey_perm {α : Type} (key : α → Int) (l : List α) :
    List.Perm (sortByKey key l) l := by
  simpa [sortByKey] using foldl_insAfter_perm key l []

theorem insAfter_sorted {α : Type} (key : α → Int) (a : α) (l : List α)
    (h : KeySorted key l) : KeySorted key (insAfter key a l) := by
  induction l with
  | nil => simp [insAfter, KeySorted]
  | cons b t ih =>
    rcases List.pairwise_cons.mp h with ⟨hb, ht⟩
    simp only [insAfter]
    split
    · rename_i hba
      refine List.pairwise_cons.mpr ⟨?_, ih ht⟩
      intro y hy
      rcases List.mem_cons.mp ((insAfter_perm key a t).mem_iff.mp hy) with
        rfl | hy'
      · exact hba
      · exact hb y hy'
    · rename_i hba
      refine List.pairwise_cons.mpr ⟨?_, h⟩
      intro y hy
      rcases List.mem_cons.mp hy with rfl | hy
      · omega
      · have := hb y hy; omega

theorem sortByKey_sorted {α : Type} (key : α → Int) (l : List α) :
    KeySorted key (sortByKey key l) := by
  suffices h : ∀ acc, KeySorted key acc →
      KeySorted key (l.foldl (fun acc x => insAfter key x acc) acc) by
    exact h [] (by simp [KeySorted])
  induction l with
  | nil => exact fun acc h => h
  | cons x t ih =>
    intro acc hacc
    exact ih _ (insAfter_sorted key x acc hacc)

theorem insAfter_of_le {α : Type} (key : α → Int) (a : α) (l : List α)
    (h : ∀ b ∈ l, key b ≤ key a) : insAfter key a l = l ++ [a] := by
  induction l with
  | nil => simp [insAfter]
  | cons b t ih =>
    simp only [insAfter, h b (by simp), if_true]
    simp only [List.cons_append, List.cons.injEq, true_and]
    exact ih fun c hc => h c (by simp [hc])

theorem sortByKey_of_sorted {α : Type} (key : α → Int) (l : List α)
    (h : KeySorted key l) : sortByKey key l = l := by
  suffices haux : ∀ l acc, KeySorted key (acc ++ l) →
      l.foldl (fun acc x => insAfter key x acc) acc = acc ++ l by
    simpa [sortByKey] using haux l [] (by simpa using h)
  intro l
  induction l with
  | nil => simp
  | cons x t ih =>
    intro acc hacc
    have hax : ∀ b ∈ acc, key b ≤ key x := by
      intro b hb
      have := (List.pairwise_append.mp hacc).2.2 b hb x (by simp)
      exact this
    simp only [List.foldl_cons, insAfter_of_le key x acc hax]
    have : (acc ++ [x]) ++ t = acc ++ x :: t := by simp
    rw [ih (acc ++ [x]) (by rw [this]; exact hacc), this]

theorem sortByKey_idem {α : Type} (key : α → Int) (l : List α) :
    sortByKey key (sortByKey key l) = sortByKey key l :=
  sortByKey_of_sorted key _ (sortByKey_sorted key l)

theorem insAfter_map {α β : Type} (key1 : α → Int) (key2 : β → Int)
    (f : α → β) (hk : ∀ x, key2 (f x) = key1 x) (a : α) (l : List α) :
    (insAfter key1 a l).map f = insAfter key2 (f a) (l.map f) := by
  induction l with
  | nil => simp [insAfter]
  | cons b t ih =>
    simp only [insAfter, List.map_cons, hk]
    split
    · simpa using ih
    · simp

theorem sortByKey_map {α β : Type} (key1 : α → Int) (key2 : β → Int)
    (f : α → β) (hk : ∀ x, key2 (f x) = key1 x) (l : List α) :
    (sortByKey key1 l).map f = sortByKey key2 (l.map f) := by
  suffices haux : ∀ (m acc : List α),
      (m.foldl (fun acc x => insAfter key1 x acc) acc).map f =
        (m.map f).foldl (fun acc x => insAfter key2 x acc) (acc.map f) by
    simpa [sortByKey] using haux l []
  intro m
  induction m with
  | nil => simp
  | cons x t ih =>
    intro acc
    simp only [List.foldl_cons, List.map_cons]
    rw [ih, insAfter_map key1 key2 f hk]

/-! ### Basic facts about heap array reads and writes -/

theorem lset_length (l : List HEntry) (i : Nat) (x : HEntry) :
    (lset l i x).length = l.length := by
  simp [lset]

theorem lget_lset_self (l : List HEntry) (i : Nat) (x : HEntry)
    (h : i < l.length) : lget (lset l i x) i = x := by
  induction l generalizing i with
  | nil => simp at h
  | cons a t ih =>
    cases i with
    | zero => simp [lget, lset]
    | succ n =>
      simpa [lget, lset] using ih n (by simpa using h)

theorem lget_lset_ne (l : List HEntry) (i j : Nat) (x : HEntry)
    (h : i ≠ j) : lget (lset l i x) j = lget l j := by
  induction l generalizing i j with
  | nil => simp [lget, lset]
  | cons a t ih =>
    cases i with
    | zero =>
      cases j with
      | zero => exact absurd rfl h
      | succ m => simp [lget, lset]
    | succ n =>
      cases j with
      | zero => simp [lget, lset]
      | succ m =>
        simpa [lget, lset] using ih n m (by omega)

theorem lset_lset_self (l : List HEntry) (i : Nat) (x y : HEntry) :
    lset (lset l i x) i y = lset l i y := by
  simp [lset, List.set_set]

theorem lget_append_lt (l m : List HEntry) (i : Nat) (h : i < l.length) :
    lget (l ++ m) i = lget l i := by
  induction l generalizing i with
  | nil => simp at h
  | cons a t ih =>
    cases i with
    | zero => simp [lget]
    | succ n => simpa [lget] using ih n (by simpa using h)

theorem lset_append_self (l : List HEntry) (e x : HEntry) :
    lset (l ++ [e]) l.length x = l ++ [x] := by
  induction l with
  | nil => simp [lset]
  | cons a t _ih => simp [lset]

theorem lget_dropLast (l : List HEntry) (i : Nat)
    (h : i < l.length - 1) : lget l.dropLast i = lget l i := by
  induction l generalizing i with
  | nil => simp at h
  | cons a t ih =>
    cases t with
    | nil => simp at h
    | cons b u =>
      cases i with
      | zero => simp [lget]
      | succ n =>
        have := ih (i := n) (by simp at h ⊢; omega)
        simpa [lget] using this

/-! ### `_siftdown` restores the heap invariant -/

theorem siftdownF_heapInv (fuel : Nat) :
    ∀ (l : List HEntry) (pos : Nat) (ni : HEntry),
      pos ≤ fuel → pos < l.length →
      EE (lset l pos ni) pos → Bridge (lset l pos ni) pos →
      HeapInv (siftdownF fuel l 0 pos ni) := by
  induction fuel with
  | zero =>
    intro l pos ni hle hlt hEE _hBr
    have hpos : pos = 0 := Nat.le_zero.mp hle
    subst hpos
    intro i hi0 hlen
    simp only [siftdownF] at hlen ⊢
    exact hEE i hi0 hlen (by omega)
  | succ fuel ih =>
    intro l pos ni hle hlt hEE hBr
    by_cases hp : 0 < pos
    · have hpplt : (pos - 1) / 2 < pos := by omega
      by_cases hni : ni.pri < (lget l ((pos - 1) / 2)).pri
      · have hstep : siftdownF (fuel + 1) l 0 pos ni =
            siftdownF fuel (lset l pos (lget l ((pos - 1) / 2))) 0
              ((pos - 1) / 2) ni := by
          simp only [siftdownF, if_pos hp, if_pos hni]
        rw [hstep]
        set pp := (pos - 1) / 2 with hppdef
        set parent := lget l pp with hpardef
        have hppne : pp ≠ pos := by omega
        -- the virtual array before the move and after it
        have hval : ∀ j, j ≠ pos → j ≠ pp →
            lget (lset (lset l pos parent) pp ni) j = lget (lset l pos ni) j := by
          intro j hj1 hj2
          rw [lget_lset_ne _ _ _ _ (fun h => hj2 h.symm),
              lget_lset_ne _ _ _ _ (fun h => hj1 h.symm),
              lget_lset_ne _ _ _ _ (fun h => hj1 h.symm)]
        have hvpp : lget (lset (lset l pos parent) pp ni) pp = ni :=
          lget_lset_self _ _ _ (by rw [lset_length]; omega)
        have hvpos : lget (lset (lset l pos parent) pp ni) pos = parent := by
          rw [lget_lset_ne _ _ _ _ hppne, lget_lset_self _ _ _ hlt]
        have hvppv : lget (lset l pos ni) pp = parent := by
          rw [lget_lset_ne _ _ _ _ (fun h => hppne h.symm)]
        refine ih _ pp ni (by omega) (by rw [lset_length]; omega) ?_ ?_
        · -- EE of the moved virtual array at the new hole pp
          intro i hi0 hilen hine
          rw [lset_length, lset_length] at hilen
          by_cases hipos : i = pos
          · subst hipos
            rw [show (i - 1) / 2 = pp from rfl, hvpp, hvpos]
            omega
          · rw [hval i hipos hine]
            by_cases hq : (i - 1) / 2 = pp
            · rw [hq, hvpp]
              have h1 := hEE i hi0 (by rw [lset_length]; omega) hipos
              rw [hq, hvppv] at h1
              omega
            · by_cases hq2 : (i - 1) / 2 = pos
              · rw [hq2, hvpos]
                have h1 := hBr hp i (by rw [lset_length]; omega) hq2
                rw [hvppv] at h1
                exact h1
              · rw [hval _ hq2 hq]
                exact hEE i hi0 (by rw [lset_length]; omega) hipos
        · -- Bridge of the moved virtual array at the new hole pp
          intro hpp0 i hilen hq
          rw [lset_length, lset_length] at hilen
          have hglt : (pp - 1) / 2 < pp := by omega
          have hgne1 : (pp - 1) / 2 ≠ pos := by omega
          have hgne2 : (pp - 1) / 2 ≠ pp := by omega
          rw [hval _ hgne1 hgne2]
          have hEEpp := hEE pp hpp0 (by rw [lset_length]; omega) hppne
          by_cases hipos : i = pos
          · subst hipos
            rw [hvpos, ← hvppv]
            exact hEEpp
          · have hippne : i ≠ pp := by omega
            rw [hval i hipos hippne]
            have hi0 : 0 < i := by omega
            have h1 := hEE i hi0 (by rw [lset_length]; omega) hipos
            rw [hq] at h1
            rw [hvppv] at h1
            rw [hvppv] at hEEpp
            have : parent.pri ≤ (lget (lset l pos ni) i).pri := h1
            omega
      · -- the loop stops: parent ≤ newitem, write and done
        have hstep : siftdownF (fuel + 1) l 0 pos ni = lset l pos ni := by
          simp only [siftdownF, if_pos hp, if_neg hni]
        rw [hstep]
        intro i hi0 hilen
        rw [lset_length] at hilen
        by_cases hipos : i = pos
        · have h1 : lget (lset l pos ni) ((i - 1) / 2) =
              lget l ((i - 1) / 2) :=
            lget_lset_ne _ _ _ _ (by omega)
          have h2 : lget (lset l pos ni) i = ni := by
            rw [hipos]; exact lget_lset_self _ _ _ hlt
          rw [h1, h2, hipos]
          omega
        · exact hEE i hi0 (by rw [lset_length]; omega) hipos
    · -- pos = 0: the hole is the root, write and done
      have hpos : pos = 0 := by omega
      subst hpos
      have hstep : siftdownF (fuel + 1) l 0 0 ni = lset l 0 ni := by
        simp [siftdownF]
      rw [hstep]
      intro i hi0 hilen
      rw [lset_length] at hilen
      exact hEE i hi0 (by rw [lset_length]; omega) (by omega)

/-- At a leaf, `_siftup` hands over to `_siftdown`, whose precondition
follows from the walk-down invariant because the hole has no children. -/
theorem siftup_leaf_heapInv (l : List HEntry) (pos : Nat) (ni : HEntry)
    (hnc : ¬ 2 * pos + 1 < l.length) (hlt : pos < l.length)
    (hDA : DA (lset l pos ni) pos) (hBr : Bridge (lset l pos ni) pos) :
    HeapInv (siftdown l 0 pos ni) := by
  refine siftdownF_heapInv pos l pos ni (Nat.le_refl pos) hlt ?_ hBr
  intro i hi0 hilen hine
  rw [lset_length] at hilen
  by_cases hq : (i - 1) / 2 = pos
  · omega
  · exact hDA i hi0 (by rw [lset_length]; omega) hine hq

/-! ### `_siftup` restores the heap invariant -/

theorem siftupF_heapInv (fuel : Nat) :
    ∀ (l : List HEntry) (pos : Nat) (ni : HEntry),
      l.length ≤ fuel + pos → pos < l.length →
      DA (lset l pos ni) pos → Bridge (lset l pos ni) pos →
      HeapInv (siftupF fuel l 0 pos ni) := by
  induction fuel with
  | zero =>
    intro l pos ni hfuel hlt _hDA _hBr
    omega
  | succ fuel ih =>
    intro l pos ni hfuel hlt hDA hBr
    by_cases hc : 2 * pos + 1 < l.length
    · -- the hole has children: move the smaller child up and recurse
      have hmain : ∀ cp, ((cp - 1) / 2 = pos ∧ pos < cp) → cp < l.length →
          (∀ j, 0 < j → j < l.length → (j - 1) / 2 = pos →
            (lget l cp).pri ≤ (lget l j).pri) →
          HeapInv (siftupF fuel (lset l pos (lget l cp)) 0 cp ni) := by
        intro cp hcp hcplt hmin
        set m := lget l cp with hmdef
        have hcpne : cp ≠ pos := by omega
        have hval : ∀ j, j ≠ pos → j ≠ cp →
            lget (lset (lset l pos m) cp ni) j = lget (lset l pos ni) j := by
          intro j hj1 hj2
          rw [lget_lset_ne _ _ _ _ (fun h => hj2 h.symm),
              lget_lset_ne _ _ _ _ (fun h => hj1 h.symm),
              lget_lset_ne _ _ _ _ (fun h => hj1 h.symm)]
        have hvcp : lget (lset (lset l pos m) cp ni) cp = ni :=
          lget_lset_self _ _ _ (by rw [lset_length]; omega)
        have hvpos : lget (lset (lset l pos m) cp ni) pos = m := by
          rw [lget_lset_ne _ _ _ _ hcpne, lget_lset_self _ _ _ hlt]
        have hmv : lget (lset l pos ni) cp = m := by
          rw [lget_lset_ne _ _ _ _ (fun h => hcpne h.symm)]
        refine ih _ cp ni ?_ (by rw [lset_length]; omega) ?_ ?_
        · rw [lset_length]; omega
        · -- DA of the moved array at the new hole cp
          intro i hi0 hilen hine hqne
          rw [lset_length, lset_length] at hilen
          by_cases hipos : i = pos
          · have hp0 : 0 < pos := by omega
            have hgne1 : (pos - 1) / 2 ≠ pos := by omega
            have hgne2 : (pos - 1) / 2 ≠ cp := by omega
            rw [hipos, hval _ hgne1 hgne2, hvpos, ← hmv]
            exact hBr hp0 cp (by rw [lset_length]; omega) hcp.1
          · by_cases hq : (i - 1) / 2 = pos
            · rw [hq, hvpos, hval i hipos hine]
              have h2 : lget (lset l pos ni) i = lget l i :=
                lget_lset_ne _ _ _ _ (fun h => hipos h.symm)
              rw [h2, hmdef]
              exact hmin i hi0 (by omega) hq
            · rw [hval i hipos hine, hval _ hq hqne]
              exact hDA i hi0 (by rw [lset_length]; omega) hipos hq
        · -- Bridge of the moved array at the new hole cp
          intro _h0cp i hilen hq
          rw [lset_length, lset_length] at hilen
          have hgp : (cp - 1) / 2 = pos := hcp.1
          have hiner : cp < i := by omega
          have hine1 : i ≠ pos := by omega
          have hine2 : i ≠ cp := by omega
          rw [hgp, hvpos, hval i hine1 hine2]
          have h1 := hDA i (by omega) (by rw [lset_length]; omega) hine1
            (by omega)
          rw [hq] at h1
          rw [hmv] at h1
          exact h1
      simp only [siftupF, if_pos hc]
      by_cases hsel : 2 * pos + 1 + 1 < l.length ∧
          ¬ (lget l (2 * pos + 1)).pri < (lget l (2 * pos + 1 + 1)).pri
      · rw [if_pos hsel]
        refine hmain (2 * pos + 1 + 1) (by omega) (by omega) ?_
        intro j hj0 hj hjq
        have hj2 : j = 2 * pos + 1 ∨ j = 2 * pos + 2 := by omega
        rcases hj2 with rfl | rfl
        · have := hsel.2
          omega
        · exact le_refl _
      · rw [if_neg hsel]
        refine hmain (2 * pos + 1) (by omega) hc ?_
        intro j hj0 hj hjq
        have hj2 : j = 2 * pos + 1 ∨ j = 2 * pos + 2 := by omega
        rcases hj2 with rfl | rfl
        · exact le_refl _
        · have h2 : (lget l (2 * pos + 1)).pri <
              (lget l (2 * pos + 1 + 1)).pri := by
            by_contra hcon
            exact hsel ⟨by omega, hcon⟩
          have : 2 * pos + 1 + 1 = 2 * pos + 2 := by omega
          rw [this] at h2
          omega
    · -- no children: hand over to `_siftdown`
      simp only [siftupF, if_neg hc]
      exact siftup_leaf_heapInv l pos ni hc hlt hDA hBr

/-! ### `heappush` / `heappop` specifications -/

theorem heappush_heapInv (h : List HEntry) (e : HEntry)
    (hinv : HeapInv h) : HeapInv (heappush h e) := by
  rw [show heappush h e = siftdownF h.length (h ++ [e]) 0 h.length e
    from rfl]
  refine siftdownF_heapInv h.length (h ++ [e]) h.length e (Nat.le_refl _)
    (by simp) ?_ ?_
  · intro i hi0 hilen hine
    rw [lset_length] at hilen
    simp only [List.length_append, List.length_cons,
      List.length_nil] at hilen
    have hilt : i < h.length := by omega
    have h1 : lget (lset (h ++ [e]) h.length e) i = lget h i := by
      rw [lget_lset_ne _ _ _ _ (by omega), lget_append_lt _ _ _ hilt]
    have h2 : lget (lset (h ++ [e]) h.length e) ((i - 1) / 2) =
        lget h ((i - 1) / 2) := by
      rw [lget_lset_ne _ _ _ _ (by omega), lget_append_lt _ _ _ (by omega)]
    rw [h1, h2]
    exact hinv i hi0 hilt
  · intro hp0 i hilen hq
    rw [lset_length] at hilen
    simp only [List.length_append, List.length_cons,
      List.length_nil] at hilen
    omega

theorem heapInv_root_min (h : List HEntry) (hinv : HeapInv h) :
    ∀ i, i < h.length → (lget h 0).pri ≤ (lget h i).pri := by
  intro i
  induction i using Nat.strong_induction_on with
  | _ i ih =>
    intro hi
    rcases Nat.eq_zero_or_pos i with h0 | hp
    · subst h0; exact le_refl _
    · have h1 := hinv i hp hi
      have h2 := ih ((i - 1) / 2) (by omega) (by omega)
      omega

/-! ### The sift loops permute the array -/

theorem perm_lset_pull (t : List HEntry) (k : Nat) (x : HEntry)
    (hk : k < t.length) :
    List.Perm (lget t k :: lset t k x) (x :: t) := by
  induction t generalizing k with
  | nil => simp at hk
  | cons b u ih =>
    cases k with
    | zero => simpa [lget, lset] using List.Perm.swap x b u
    | succ m =>
      have hk' : m < u.length := by simpa using hk
      have h1 : List.Perm (lget u m :: b :: lset u m x)
          (b :: (lget u m :: lset u m x)) := List.Perm.swap b (lget u m) _
      have h2 : List.Perm (b :: (lget u m :: lset u m x)) (b :: (x :: u)) :=
        List.Perm.cons b (ih m hk')
      have h3 : List.Perm (b :: x :: u) (x :: b :: u) := List.Perm.swap x b u
      simpa [lget, lset] using (h1.trans h2).trans h3

theorem perm_lset_swapval (t : List HEntry) (k : Nat) (a x : HEntry)
    (hk : k < t.length) :
    List.Perm (x :: lset t k a) (a :: lset t k x) := by
  induction t generalizing k with
  | nil => simp at hk
  | cons b u ih =>
    cases k with
    | zero => simpa [lget, lset] using List.Perm.swap a x u
    | succ m =>
      have hk' : m < u.length := by simpa using hk
      have h1 : List.Perm (x :: b :: lset u m a)
          (b :: (x :: lset u m a)) := List.Perm.swap b x _
      have h2 : List.Perm (b :: (x :: lset u m a)) (b :: (a :: lset u m x)) :=
        List.Perm.cons b (ih m hk')
      have h3 : List.Perm (b :: a :: lset u m x) (a :: b :: lset u m x) :=
        List.Perm.swap a b _
      simpa [lget, lset] using (h1.trans h2).trans h3

theorem perm_lset_lset_down (l : List HEntry) (i j : Nat) (x : HEntry)
    (hj : j < i) (hi : i < l.length) :
    List.Perm (lset (lset l i (lget l j)) j x) (lset l i x) := by
  induction l generalizing i j with
  | nil => simp at hi
  | cons b u ih =>
    cases j with
    | zero =>
      cases i with
      | zero => omega
      | succ m =>
        simpa [lget, lset] using
          perm_lset_swapval u m b x (by simpa using hi)
    | succ jj =>
      cases i with
      | zero => omega
      | succ m =>
        simpa [lget, lset] using
          List.Perm.cons b (ih m jj (by omega) (by simpa using hi))

theorem perm_lset_lset_up (l : List HEntry) (i j : Nat) (x : HEntry)
    (hij : i < j) (hj : j < l.length) :
    List.Perm (lset (lset l i (lget l j)) j x) (lset l i x) := by
  induction l generalizing i j with
  | nil => simp at hj
  | cons b u ih =>
    cases i with
    | zero =>
      cases j with
      | zero => omega
      | succ m =>
        simpa [lget, lset] using perm_lset_pull u m x (by simpa using hj)
    | succ n =>
      cases j with
      | zero => omega
      | succ m =>
        simpa [lget, lset] using
          List.Perm.cons b (ih n m (by omega) (by simpa using hj))

theorem siftdownF_perm (fuel : Nat) :
    ∀ (l : List HEntry) (pos : Nat) (ni : HEntry), pos < l.length →
      List.Perm (siftdownF fuel l 0 pos ni) (lset l pos ni) := by
  induction fuel with
  | zero => intro l pos ni _; exact List.Perm.refl _
  | succ fuel ih =>
    intro l pos ni hlt
    by_cases hp : 0 < pos
    · by_cases hni : ni.pri < (lget l ((pos - 1) / 2)).pri
      · rw [show siftdownF (fuel + 1) l 0 pos ni =
            siftdownF fuel (lset l pos (lget l ((pos - 1) / 2))) 0
              ((pos - 1) / 2) ni by
          simp only [siftdownF, if_pos hp, if_pos hni]]
        refine (ih _ _ ni (by rw [lset_length]; omega)).trans ?_
        exact perm_lset_lset_down l pos ((pos - 1) / 2) ni (by omega) hlt
      · rw [show siftdownF (fuel + 1) l 0 pos ni = lset l pos ni by
          simp only [siftdownF, if_pos hp, if_neg hni]]
    · rw [show siftdownF (fuel + 1) l 0 pos ni = lset l pos ni by
        simp [siftdownF]; omega]

theorem siftupF_perm (fuel : Nat) :
    ∀ (l : List HEntry) (pos : Nat) (ni : HEntry), pos < l.length →
      List.Perm (siftupF fuel l 0 pos ni) (lset l pos ni) := by
  induction fuel with
  | zero =>
    intro l pos ni hlt
    exact siftdownF_perm pos l pos ni hlt
  | succ fuel ih =>
    intro l pos ni hlt
    by_cases hc : 2 * pos + 1 < l.length
    · have hgen : ∀ cp, pos < cp → cp < l.length →
          List.Perm (siftupF fuel (lset l pos (lget l cp)) 0 cp ni)
            (lset l pos ni) := by
        intro cp h1 h2
        refine (ih _ cp ni (by rw [lset_length]; omega)).trans ?_
        exact perm_lset_lset_up l pos cp ni h1 h2
      simp only [siftupF, if_pos hc]
      by_cases hsel : 2 * pos + 1 + 1 < l.length ∧
          ¬ (lget l (2 * pos + 1)).pri < (lget l (2 * pos + 1 + 1)).pri
      · rw [if_pos hsel]
        exact hgen (2 * pos + 1 + 1) (by omega) (by omega)
      · rw [if_neg hsel]
        exact hgen (2 * pos + 1) (by omega) hc
    · simp only [siftupF, if_neg hc]
      exact siftdownF_perm pos l pos ni hlt

theorem heappush_perm (h : List HEntry) (e : HEntry) :
    List.Perm (heappush h e) (h ++ [e]) := by
  rw [show heappush h e = siftdownF h.length (h ++ [e]) 0 h.length e
    from rfl]
  refine (siftdownF_perm h.length (h ++ [e]) h.length e (by simp)).trans ?_
  rw [lset_append_self]

theorem dropLast_append_lget (h : List HEntry) (hne : h ≠ []) :
    h.dropLast ++ [lget h (h.length - 1)] = h := by
  induction h with
  | nil => exact absurd rfl hne
  | cons a t ih =>
    cases t with
    | nil => simp [lget]
    | cons b u =>
      have := ih (by simp)
      simpa [lget] using this

theorem heappop_eq_none (h : List HEntry) :
    heappop h = none ↔ h = [] := by
  match h with
  | [] => simp [heappop]
  | [a] => simp [heappop]
  | a :: b :: t => simp [heappop]

/-- The full specification of one `heappop`: it returns the root, the
result is the input minus one occurrence of the root, and the heap
invariant is preserved. -/
theorem heappop_cases (h : List HEntry) (r : HEntry) (h' : List HEntry)
    (hp : heappop h = some (r, h')) :
    r = lget h 0 ∧ List.Perm (r :: h') h ∧ (HeapInv h → HeapInv h') := by
  match h with
  | [] => simp [heappop] at hp
  | [a] =>
    simp only [heappop, Option.some.injEq, Prod.mk.injEq] at hp
    obtain ⟨rfl, rfl⟩ := hp
    refine ⟨by simp [lget], List.Perm.refl _, fun _ => ?_⟩
    intro i hi0 hilen
    simp at hilen
  | a :: b :: t =>
    simp only [heappop, Option.some.injEq, Prod.mk.injEq] at hp
    obtain ⟨rfl, rfl⟩ := hp
    set last := lget (a :: b :: t) ((a :: b :: t).length - 1) with hlast
    set rest := (a :: b :: t).dropLast with hrest
    have hrlen : rest.length = t.length + 1 := by
      simp [hrest]
    have hrne : 0 < rest.length := by omega
    have hl1len : (lset rest 0 last).length = rest.length := lset_length _ _ _
    have hperm1 : List.Perm (siftup (lset rest 0 last) 0 0 last)
        (lset rest 0 last) := by
      rw [show siftup (lset rest 0 last) 0 0 last =
        siftupF (lset rest 0 last).length (lset rest 0 last) 0 0 last
        from rfl]
      have := siftupF_perm (lset rest 0 last).length (lset rest 0 last) 0
        last (by omega)
      rwa [lset_lset_self] at this
    have hrestcons : rest = a :: (b :: t).dropLast := by simp [hrest]
    constructor
    · simp [lget]
    constructor
    · -- a :: h' ~ a :: (last :: rt) ~ a :: rt ++ [last] = rest ++ [last] = h
      refine (List.Perm.cons a hperm1).trans ?_
      have hsplit : rest ++ [last] = a :: b :: t :=
        dropLast_append_lget (a :: b :: t) (by simp)
      rw [hrestcons]
      have h2 : lset (a :: (b :: t).dropLast) 0 last =
          last :: (b :: t).dropLast := by simp [lset]
      rw [h2]
      have h3 : List.Perm (a :: last :: (b :: t).dropLast)
          (a :: ((b :: t).dropLast ++ [last])) :=
        List.Perm.cons a (List.perm_append_singleton _ _).symm
      refine h3.trans ?_
      have h4 : a :: ((b :: t).dropLast ++ [last]) =
          (a :: (b :: t).dropLast) ++ [last] := by simp
      rw [h4, ← hrestcons, hsplit]
    · intro hinv
      rw [show siftup (lset rest 0 last) 0 0 last =
        siftupF (lset rest 0 last).length (lset rest 0 last) 0 0 last
        from rfl]
      refine siftupF_heapInv _ _ 0 last (by omega) (by omega) ?_ ?_
      · -- DA of the array with the root overwritten
        rw [lset_lset_self]
        intro i hi0 hilen hine hqne
        rw [lset_length] at hilen
        have hilt : i < rest.length := by omega
        have hv1 : lget (lset rest 0 last) i = lget rest i :=
          lget_lset_ne _ _ _ _ (by omega)
        have hv2 : lget (lset rest 0 last) ((i - 1) / 2) =
            lget rest ((i - 1) / 2) :=
          lget_lset_ne _ _ _ _ (by omega)
        have hd1 : lget rest i = lget (a :: b :: t) i := by
          rw [hrest]
          exact lget_dropLast _ _ (by simp; omega)
        have hd2 : lget rest ((i - 1) / 2) =
            lget (a :: b :: t) ((i - 1) / 2) := by
          rw [hrest]
          exact lget_dropLast _ _ (by simp; omega)
        rw [hv1, hv2, hd1, hd2]
        exact hinv i hi0 (by simp; omega)
      · intro h0
        exact absurd h0 (lt_irrefl 0)

/-- Popping everything out of a well-formed heap yields its elements in
non-decreasing priority order. -/
theorem popAllFuel_sorted_perm :
    ∀ (fuel : Nat) (h : List HEntry), h.length ≤ fuel → HeapInv h →
      KeySorted (fun e => e.pri) (popAllFuel fuel h) ∧
      List.Perm (popAllFuel fuel h) h := by
  intro fuel
  induction fuel with
  | zero =>
    intro h hlen _
    have : h = [] := List.eq_nil_of_length_eq_zero (by omega)
    subst this
    exact ⟨List.Pairwise.nil, List.Perm.refl _⟩
  | succ fuel ih =>
    intro h hlen hinv
    match hp : heappop h with
    | none =>
      have : h = [] := (heappop_eq_none h).mp hp
      subst this
      simp only [popAllFuel, hp]
      exact ⟨List.Pairwise.nil, List.Perm.refl _⟩
    | some (r, h') =>
      obtain ⟨hroot, hperm, hinv'⟩ := heappop_cases h r h' hp
      have hlen' : h'.length + 1 = h.length := by
        simpa using hperm.length_eq
      have hIH := ih h' (by omega) (hinv' hinv)
      simp only [popAllFuel, hp]
      constructor
      · refine List.pairwise_cons.mpr ⟨?_, hIH.1⟩
        intro y hy
        have hyh : y ∈ h := hperm.mem_iff.mp
          (List.mem_cons_of_mem r (hIH.2.mem_iff.mp hy))
        obtain ⟨i, hi, rfl⟩ := List.mem_iff_getElem.mp hyh
        have hmin := heapInv_root_min h hinv i hi
        have hgd : lget h i = h[i] := List.getD_eq_getElem h default hi
        rw [hroot, ← hgd]
        exact hmin
      · exact (hIH.2.cons r).trans hperm

theorem heapInv_nil : HeapInv [] := by
  intro i _ hilen
  simp at hilen

theorem foldl_heappush_spec (entries : List HEntry) :
    ∀ acc, HeapInv acc →
      HeapInv (entries.foldl heappush acc) ∧
      List.Perm (entries.foldl heappush acc) (acc ++ entries) := by
  induction entries with
  | nil => intro acc h; exact ⟨h, by simp⟩
  | cons e tl ih =>
    intro acc h
    obtain ⟨hi, hp⟩ := ih (heappush acc e) (heappush_heapInv acc e h)
    refine ⟨hi, hp.trans ?_⟩
    refine (List.Perm.append_right tl (heappush_perm acc e)).trans ?_
    exact List.Perm.of_eq (by simp)

theorem lookup_append_left_none (l₁ l₂ : List (String × QueueItem))
    (k : String) (h : l₁.lookup k = none) :
    (l₁ ++ l₂).lookup k = l₂.lookup k := by
  induction l₁ with
  | nil => simp
  | cons p t ih =>
    cases p with
    | mk k' v' =>
      by_cases hk : k = k'
      · simp [List.lookup, hk] at h
      · simp only [List.lookup, List.cons_append,
          beq_eq_false_iff_ne.mpr hk] at h ⊢
        exact ih h

/-- With pairwise-distinct shot ids, no `enqueue` hits the duplicate-id
early return, so the dispatch heap is exactly the fold of `heappush`
over the (priority, id) pairs in enqueue order. -/
theorem enqueueAll_aux (ps : List (Shot × Int)) :
    ∀ s, (∀ p ∈ ps, s.items.lookup p.1.id = none) →
      ((ps.map fun p => p.1.id).Nodup) →
      (ps.foldl (fun s p => enqueue s p.1 p.2) s).queue =
        (ps.map fun p => (⟨p.2, p.1.id⟩ : HEntry)).foldl heappush
          s.queue := by
  induction ps with
  | nil => intro s _ _; simp
  | cons p tl ih =>
    intro s hl hnd
    simp only [List.foldl_cons, List.map_cons]
    have hp0 : s.items.lookup p.1.id = none := hl p (by simp)
    have hsome : (s.items.lookup p.1.id).isSome = false := by
      rw [hp0]; rfl
    have henq : enqueue s p.1 p.2 =
        { s with
          items := s.items ++ [(p.1.id, ⟨p.2, { p.1 with status := "queued" }, false⟩)]
          queue := heappush s.queue ⟨p.2, p.1.id⟩ } := by
      simp only [enqueue, hsome, Bool.false_eq_true, if_false, dinsert,
        hp0, Option.isSome_none]
    rw [henq]
    rw [List.map_cons] at hnd
    obtain ⟨hm, ht⟩ := List.nodup_cons.mp hnd
    refine ih _ ?_ ht
    intro q hq
    have hne : q.1.id ≠ p.1.id := by
      intro hcon
      exact hm (hcon ▸ (List.mem_map.mpr ⟨q, hq, rfl⟩))
    rw [lookup_append_left_none _ _ _ (hl q (by simp [hq]))]
    simp [List.lookup, beq_eq_false_iff_ne.mpr hne]

theorem enqueueAll_queue (ps : List (Shot × Int))
    (hnd : (ps.map fun p => p.1.id).Nodup) :
    (enqueueAll ps).queue =
      (ps.map fun p => (⟨p.2, p.1.id⟩ : HEntry)).foldl heappush [] := by
  rw [show enqueueAll ps = ps.foldl (fun s p => enqueue s p.1 p.2)
    (initQM 1 none) from rfl]
  rw [enqueueAll_aux ps (initQM 1 none) (fun p _ => rfl) hnd]
  rfl

/-- C2 counterexample: four shots with equal priority 0, enqueued in the
order a, b, c, d, are dispatched in the order a, c, b, d — the binary
heap does not preserve FIFO order among equal priorities. -/
theorem C2_equal_priority_ties_not_fifo :
    (popAll c2state.queue).map (·.id) = ["a", "c", "b", "d"] ∧
    (popAll c2state.queue).map (·.id) ≠ ["a", "b", "c", "d"] := by
  exact ⟨rfl, by decide⟩

/-- C2 amended: for every batch of enqueued shots with distinct ids, the
order in which workers drain the queue is non-decreasing in priority and
dispatches exactly the enqueued items; ties among equal priorities
follow binary-heap order, not enqueue (FIFO) order. -/
theorem C2_dispatch_priority_sorted (ps : List (Shot × Int))
    (hnd : (ps.map fun p => p.1.id).Nodup) :
    KeySorted (fun e => e.pri) (popAll (enqueueAll ps).queue) ∧
    List.Perm (popAll (enqueueAll ps).queue)
      (ps.map fun p => (⟨p.2, p.1.id⟩ : HEntry)) := by
  rw [enqueueAll_queue ps hnd]
  obtain ⟨hi, hp⟩ := foldl_heappush_spec
    (ps.map fun p => (⟨p.2, p.1.id⟩ : HEntry)) [] heapInv_nil
  obtain ⟨hs, hperm⟩ := popAllFuel_sorted_perm _ _ (Nat.le_refl _) hi
  exact ⟨hs, hperm.trans (hp.trans (List.Perm.of_eq (by simp)))⟩

/-- Witness for the C2 amended theorem at a concrete input. -/
theorem C2_dispatch_priority_sorted_witness :
    (([(mkShot "a", (5 : Int)), (mkShot "b", 1), (mkShot "c", 3)].map
        (fun p => p.1.id)).Nodup) ∧
    KeySorted (fun e => e.pri)
      (popAll (enqueueAll
        [(mkShot "a", 5), (mkShot "b", 1), (mkShot "c", 3)]).queue) := by
  refine ⟨by decide, ?_⟩
  exact (C2_dispatch_priority_sorted
    [(mkShot "a", 5), (mkShot "b", 1), (mkShot "c", 3)] (by decide)).1

/-! ### Worker-pool accounting lemmas -/

theorem countP_set_phase (p : WPhase → Bool) (ws : List WPhase) :
    ∀ (w : Nat) (oldph v : WPhase), ws.get? w = some oldph →
      (ws.set w v).countP p + (if p oldph then 1 else 0) =
        ws.countP p + (if p v then 1 else 0) := by
  induction ws with
  | nil => intro w oldph v hw; simp at hw
  | cons x t ih =>
    intro w oldph v hw
    cases w with
    | zero =>
      simp only [List.get?] at hw
      injection hw with hw
      subst hw
      simp only [List.set, List.countP_cons]
      omega
    | succ n =>
      simp only [List.get?] at hw
      have := ih n oldph v hw
      simp only [List.set, List.countP_cons]
      omega

theorem mem_busyIds_cons (v : WPhase) (t : List WPhase) (x : String)
    (hx : x ∈ busyIds t) : x ∈ busyIds (v :: t) := by
  cases hv : busyOf v with
  | none => simpa only [busyIds, List.filterMap_cons, hv] using hx
  | some y =>
    simp only [busyIds, List.filterMap_cons, hv]
    exact List.mem_cons_of_mem y hx

theorem busyIds_mem_set (ws : List WPhase) :
    ∀ (w : Nat) (v : WPhase) (x : String) (oldph : WPhase),
      x ∈ busyIds ws → ws.get? w = some oldph →
      (busyOf oldph = none ∨ ∃ y, busyOf oldph = some y ∧ x ≠ y) →
      x ∈ busyIds (ws.set w v) := by
  induction ws with
  | nil => intro w v x oldph hx hw _; simp at hw
  | cons a t ih =>
    intro w v x oldph hx hw hne
    cases w with
    | zero =>
      simp only [List.get?] at hw
      injection hw with hw
      subst hw
      simp only [List.set]
      have hxt : x ∈ busyIds t := by
        rcases hne with h0 | ⟨y, hy, hxy⟩
        · simpa only [busyIds, List.filterMap_cons, h0] using hx
        · rcases (by simpa only [busyIds, List.filterMap_cons, hy,
              List.mem_cons] using hx : x = y ∨ x ∈ busyIds t) with
            rfl | hmem
          · exact absurd rfl hxy
          · exact hmem
      exact mem_busyIds_cons v t x hxt
    | succ n =>
      simp only [List.get?] at hw
      simp only [List.set]
      cases ha : busyOf a with
      | none =>
        have hxt : x ∈ busyIds t := by
          simpa [busyIds, List.filterMap_cons, ha] using hx
        exact mem_busyIds_cons a _ x (ih n v x oldph hxt hw hne)
      | some y =>
        rcases (by simpa only [busyIds, List.filterMap_cons, ha,
            List.mem_cons] using hx : x = y ∨ x ∈ busyIds t) with
          rfl | hmem
        · simp only [busyIds, List.filterMap_cons, ha]
          exact List.mem_cons_self _ _
        · have := ih n v x oldph hmem hw hne
          simp only [busyIds, List.filterMap_cons, ha]
          exact List.mem_cons_of_mem y this

theorem busyIds_mem_set_self (ws : List WPhase) :
    ∀ (w : Nat) (v : WPhase) (y : String), w < ws.length →
      busyOf v = some y → y ∈ busyIds (ws.set w v) := by
  induction ws with
  | nil => intro w v y hw _; simp at hw
  | cons a t ih =>
    intro w v y hw hv
    cases w with
    | zero => simp [busyIds, List.filterMap_cons, hv]
    | succ n =>
      simp only [List.set]
      exact mem_busyIds_cons a _ y (ih n v y (by simpa using hw) hv)

theorem holdsPermit_of_busyOf (ph : WPhase) (y : String)
    (h : busyOf ph = some y) : holdsPermit ph = true := by
  cases ph <;> simp [busyOf, holdsPermit] at h ⊢

theorem busyIds_length_le_holdCount (ws : List WPhase) :
    (busyIds ws).length ≤ holdCount ws := by
  induction ws with
  | nil => simp [busyIds, holdCount]
  | cons a t ih =>
    cases ha : busyOf a with
    | none =>
      simp only [busyIds, List.filterMap_cons, ha, holdCount,
        List.countP_cons]
      simp only [busyIds, holdCount] at ih
      omega
    | some y =>
      simp only [busyIds, List.filterMap_cons, ha, holdCount,
        List.countP_cons, List.length_cons,
        holdsPermit_of_busyOf a y ha, if_true]
      simp only [busyIds, holdCount] at ih
      omega

theorem nodup_subset_length (l₁ l₂ : List String) (hnd : l₁.Nodup)
    (hsub : ∀ x ∈ l₁, x ∈ l₂) : l₁.length ≤ l₂.length := by
  induction l₁ generalizing l₂ with
  | nil => simp
  | cons a t ih =>
    obtain ⟨hna, hnt⟩ := List.nodup_cons.mp hnd
    have hsub' : ∀ x ∈ t, x ∈ l₂.erase a := by
      intro x hx
      refine (List.mem_erase_of_ne ?_).mpr (hsub x (List.mem_cons_of_mem a hx))
      intro hcon
      exact hna (hcon ▸ hx)
    have h1 := ih (l₂.erase a) hnt hsub'
    have h2 : (l₂.erase a).length = l₂.length - 1 :=
      List.length_erase_of_mem (hsub a (by simp))
    have h3 : 0 < l₂.length := List.length_pos_of_mem (hsub a (by simp))
    simp only [List.length_cons]
    omega

theorem mem_ainsert (l : List String) (id x : String)
    (hx : x ∈ ainsert l id) : x = id ∨ x ∈ l := by
  by_cases hid : id ∈ l
  · simp only [ainsert, if_pos hid] at hx
    exact Or.inr hx
  · simp only [ainsert, if_neg hid] at hx
    rcases List.mem_append.mp hx with h | h
    · exact Or.inr h
    · simp at h
      exact Or.inl h

theorem ainsert_nodup (l : List String) (id : String) (h : l.Nodup) :
    (ainsert l id).Nodup := by
  by_cases hid : id ∈ l
  · simpa [ainsert, hid] using h
  · simp only [ainsert, if_neg hid]
    simp [List.nodup_append, h, hid]

theorem mem_ainsert_self (l : List String) (id : String) :
    id ∈ ainsert l id := by
  by_cases hid : id ∈ l <;> simp [ainsert, hid]

theorem busyIds_append_idle (ws : List WPhase) (n : Nat) :
    busyIds (ws ++ List.replicate n .idle) = busyIds ws := by
  have h : busyIds (List.replicate n .idle) = [] := by
    induction n with
    | zero => simp [busyIds]
    | succ m ih =>
      simp only [List.replicate_succ, busyIds, List.filterMap_cons, busyOf]
      exact ih
  simp only [busyIds, List.filterMap_append]
  simp only [busyIds] at h
  simp [h]

theorem holdCount_append_idle (ws : List WPhase) (n : Nat) :
    holdCount (ws ++ List.replicate n .idle) = holdCount ws := by
  have h : holdCount (List.replicate n .idle) = 0 := by
    induction n with
    | zero => simp [holdCount]
    | succ m ih =>
      simp only [holdCount] at ih
      simp [List.replicate_succ, holdCount, List.countP_cons, holdsPermit,
        ih]
  simp only [holdCount, List.countP_append]
  simp only [holdCount] at h
  omega

/-- Releasing a slot at commit time (success, failure or the
cancellation exception) preserves well-formedness. -/
theorem commitRelease_WF (s : QState) (w : Nat) (en : HEntry)
    (oldph : WPhase) (heq : s.workers.get? w = some oldph)
    (hbusy : busyOf oldph = some en.id)
    (hperm : holdsPermit oldph = true) (hwf : WF s) :
    WF (failCommit s w en.id) ∧ WF (succCommit s w en.id) := by
  obtain ⟨hnd, hsub, hcnt⟩ := hwf
  have hnd' : (s.active.erase en.id).Nodup := hnd.erase _
  have hsub' : ∀ id ∈ s.active.erase en.id,
      id ∈ busyIds (s.workers.set w .idle) := by
    intro id hid
    obtain ⟨hne, hmem⟩ := (List.Nodup.mem_erase_iff hnd).mp hid
    exact busyIds_mem_set s.workers w _ id oldph (hsub id hmem) heq
      (Or.inr ⟨en.id, hbusy, hne⟩)
  have hcnt' : holdCount (s.workers.set w .idle) + (s.semPermits + 1) =
      s.issued := by
    have hc := countP_set_phase holdsPermit s.workers w oldph .idle heq
    rw [hperm] at hc
    simp [holdsPermit] at hc
    simp only [holdCount] at hcnt ⊢
    omega
  exact ⟨⟨hnd', hsub', hcnt'⟩, ⟨hnd', hsub', hcnt'⟩⟩

/-- Every atomic step of the machine preserves well-formedness. -/
theorem stepFn_WF (e : Ev) (s s' : QState) (h : stepFn e s = some s')
    (hwf : WF s) : WF s' := by
  obtain ⟨hnd, hsub, hcnt⟩ := hwf
  cases e with
  | enqueue sh p =>
    simp only [stepFn] at h
    injection h with h
    subst h
    simp only [enqueue]
    split
    · exact ⟨hnd, hsub, hcnt⟩
    · exact ⟨hnd, hsub, hcnt⟩
  | cancel id =>
    simp only [stepFn, cancel] at h
    injection h with h
    subst h
    split
    · exact ⟨hnd, hsub, hcnt⟩
    · exact ⟨hnd, hsub, hcnt⟩
  | reorder ids =>
    simp only [stepFn] at h
    injection h with h
    subst h
    exact ⟨hnd, hsub, hcnt⟩
  | setParallel n =>
    simp only [stepFn, set_parallel] at h
    injection h with h
    subst h
    refine ⟨hnd, hsub, ?_⟩
    simp only
    split
    · simp only [holdCount] at hcnt ⊢
      omega
    · exact hcnt
  | start =>
    simp only [stepFn, start] at h
    injection h with h
    subst h
    split
    · exact ⟨hnd, hsub, hcnt⟩
    · refine ⟨hnd, ?_, ?_⟩
      · intro id hid
        simp only
        rw [busyIds_append_idle]
        exact hsub id hid
      · simp only
        rw [holdCount_append_idle]
        exact hcnt
  | wDequeue w =>
    simp only [stepFn] at h
    split at h
    · split at h
      next hw =>
        split at h
        next en q' hq =>
          injection h with h
          subst h
          refine ⟨hnd, ?_, ?_⟩
          · intro id hid
            exact busyIds_mem_set s.workers w _ id .idle (hsub id hid) hw
              (Or.inl rfl)
          · have hc := countP_set_phase holdsPermit s.workers w .idle
              (.holding en) hw
            simp [holdsPermit] at hc
            simp only [holdCount] at hcnt ⊢
            omega
        next => simp at h
      next _ _ => simp at h
    · simp at h
  | wAcquire w =>
    simp only [stepFn] at h
    split at h
    · rename_i en hw
      split at h
      · simp at h
      · rename_i hperm
        injection h with h
        subst h
        refine ⟨hnd, ?_, ?_⟩
        · intro id hid
          exact busyIds_mem_set s.workers w _ id _ (hsub id hid) hw
            (Or.inl rfl)
        · have hc := countP_set_phase holdsPermit s.workers w
            (.holding en) (.acquired en) hw
          simp [holdsPermit] at hc
          simp only [holdCount] at hcnt ⊢
          omega
    · simp at h
  | wMark w =>
    simp only [stepFn] at h
    split at h
    · rename_i en hw
      split at h
      · injection h with h
        subst h
        have hwlt : w < s.workers.length := by
          rcases List.get?_eq_some.mp hw with ⟨hlt, -⟩
          exact hlt
        refine ⟨ainsert_nodup _ _ hnd, ?_, ?_⟩
        · intro id hid
          rcases mem_ainsert _ _ _ hid with rfl | hid'
          · exact busyIds_mem_set_self s.workers w (.marked en) en.id
              hwlt rfl
          · exact busyIds_mem_set s.workers w _ id _ (hsub id hid') hw
              (Or.inl rfl)
        · have hc := countP_set_phase holdsPermit s.workers w
            (.acquired en) (.marked en) hw
          simp [holdsPermit] at hc
          simp only [holdCount] at hcnt ⊢
          omega
      · simp at h
    · simp at h
  | wRun w =>
    simp only [stepFn] at h
    split at h
    · rename_i en hw
      split at h
      · rename_i it hit
        split at h
        · injection h with h
          subst h
          exact (commitRelease_WF s w en (.marked en) hw rfl rfl
            ⟨hnd, hsub, hcnt⟩).1
        · injection h with h
          subst h
          refine ⟨hnd, ?_, ?_⟩
          · intro id hid
            by_cases hide : id = en.id
            · subst hide
              have hwlt : w < s.workers.length := by
                rcases List.get?_eq_some.mp hw with ⟨hlt, -⟩
                exact hlt
              exact busyIds_mem_set_self s.workers w (.executing en) en.id
                hwlt rfl
            · exact busyIds_mem_set s.workers w _ id _ (hsub id hid) hw
                (Or.inr ⟨en.id, rfl, hide⟩)
          · have hc := countP_set_phase holdsPermit s.workers w
              (.marked en) (.executing en) hw
            simp [holdsPermit] at hc
            simp only [holdCount] at hcnt ⊢
            omega
      · simp at h
    · simp at h
  | wCommit w ok =>
    simp only [stepFn] at h
    split at h
    · rename_i en hw
      injection h with h
      subst h
      have hcom := commitRelease_WF s w en (.executing en) hw rfl rfl
        ⟨hnd, hsub, hcnt⟩
      cases ok with
      | true => simpa using hcom.2
      | false => simpa using hcom.1
    · simp at h

/-- Well-formedness is an invariant of every reachable state. -/
theorem reach_WF (s0 s : QState) (hr : Reach s0 s) (hwf : WF s0) :
    WF s := by
  induction hr with
  | refl => exact hwf
  | tail e hr hstep ih => exact stepFn_WF e _ _ hstep ih

/-- No event of a running scheduler stops it or changes the number of
worker threads (there is no stop/restart event in scope). -/
theorem stepFn_keeps_running (e : Ev) (s s' : QState)
    (h : stepFn e s = some s') (hr : s.running = true) :
    s'.running = true ∧ s'.workers.length = s.workers.length := by
  cases e with
  | enqueue sh p =>
    simp only [stepFn] at h
    injection h with h
    subst h
    simp only [enqueue]
    split <;> exact ⟨hr, rfl⟩
  | cancel id =>
    simp only [stepFn, cancel] at h
    injection h with h
    subst h
    split <;> exact ⟨hr, rfl⟩
  | reorder ids =>
    simp only [stepFn] at h
    injection h with h
    subst h
    exact ⟨hr, rfl⟩
  | setParallel n =>
    simp only [stepFn, set_parallel] at h
    injection h with h
    subst h
    exact ⟨hr, rfl⟩
  | start =>
    simp only [stepFn, start] at h
    injection h with h
    subst h
    split
    · exact ⟨hr, rfl⟩
    · next hcon => exact absurd hr hcon
  | wDequeue w =>
    simp only [stepFn] at h
    rw [if_pos hr] at h
    split at h
    next hw =>
      split at h
      next en q' hq =>
        injection h with h
        subst h
        exact ⟨hr, by simp⟩
      next => simp at h
    next _ _ => simp at h
  | wAcquire w =>
    simp only [stepFn] at h
    split at h
    · rename_i en hw
      split at h
      · simp at h
      · injection h with h
        subst h
        exact ⟨hr, by simp⟩
    · simp at h
  | wMark w =>
    simp only [stepFn] at h
    split at h
    · rename_i en hw
      split at h
      · injection h with h
        subst h
        exact ⟨hr, by simp⟩
      · simp at h
    · simp at h
  | wRun w =>
    simp only [stepFn] at h
    split at h
    · rename_i en hw
      split at h
      · split at h
        · injection h with h
          subst h
          exact ⟨hr, by simp [failCommit]⟩
        · injection h with h
          subst h
          exact ⟨hr, by simp⟩
      · simp at h
    · simp at h
  | wCommit w ok =>
    simp only [stepFn] at h
    split at h
    · rename_i en hw
      injection h with h
      subst h
      cases ok with
      | true => exact ⟨hr, by simp [succCommit]⟩
      | false => exact ⟨hr, by simp [failCommit]⟩
    · simp at h

/-- Along any run of a started scheduler, the worker count is fixed. -/
theorem reach_frame (s0 s : QState) (hr : Reach s0 s)
    (h0 : s0.running = true) :
    s.running = true ∧ s.workers.length = s0.workers.length := by
  induction hr with
  | refl => exact ⟨h0, rfl⟩
  | tail e hr hstep ih =>
    obtain ⟨h1, h2⟩ := ih
    obtain ⟨h3, h4⟩ := stepFn_keeps_running _ _ _ hstep h1
    exact ⟨h3, h4.trans h2⟩

/-- C4 amended: in every reachable state of a well-formed scheduler, an
item is Active only while its worker holds a semaphore unit, and the
units are conserved: held plus free units always equal every unit the
semaphore has ever had (the construction value plus all increases). A
`set_parallel` decrease revokes nothing, so the Active count is bounded
by the total units issued, not by the current `parallel_jobs`. -/
theorem C4_permit_accounting (s0 s : QState) (hwf : WF s0)
    (hr : Reach s0 s) :
    s.active.length ≤ holdCount s.workers ∧
    holdCount s.workers + s.semPermits = s.issued := by
  obtain ⟨hnd, hsub, hcnt⟩ := reach_WF s0 s hr hwf
  exact ⟨(nodup_subset_length _ _ hnd hsub).trans
    (busyIds_length_le_holdCount _), hcnt⟩

/-- Witness for the C4 amended theorem at a concrete state. -/
theorem C4_permit_accounting_witness :
    WF (initQM 1 none) ∧
    (initQM 1 none).active.length ≤ holdCount (initQM 1 none).workers ∧
    holdCount (initQM 1 none).workers + (initQM 1 none).semPermits =
      (initQM 1 none).issued := by
  have hwf : WF (initQM 1 none) := ⟨by decide, by decide, by decide⟩
  have h := C4_permit_accounting (initQM 1 none) (initQM 1 none) hwf
    Reach.refl
  exact ⟨hwf, h.1, h.2⟩

/-- C5: with concurrency 1, `start()` spawned exactly one worker loop,
and `set_parallel(2)` only releases a semaphore unit — it spawns no new
worker. From the state in which the single worker is inside the executor
callback for the first item and the resize has happened (`c5mid`,
reached by `c5evs`), no sequence of events can make two items Active
simultaneously: the second item cannot become Active while the first is
still running, contradicting the claim. -/
theorem C5_no_concurrent_second_active :
    runEvents c5evs (initQM 1 none) = some c5mid ∧
    ¬ ∃ s, Reach c5mid s ∧ 2 ≤ s.active.length := by
  refine ⟨rfl, ?_⟩
  rintro ⟨s, hr, h2⟩
  have hwf : WF c5mid := ⟨by decide, by decide, by decide⟩
  obtain ⟨hnd, hsub, hcnt⟩ := reach_WF c5mid s hr hwf
  have h1 : s.active.length ≤ holdCount s.workers :=
    (nodup_subset_length _ _ hnd hsub).trans
      (busyIds_length_le_holdCount _)
  have h3 : holdCount s.workers ≤ s.workers.length :=
    List.countP_le_length _
  have h4 := (reach_frame c5mid s hr (by decide)).2
  have h5 : c5mid.workers.length = 1 := by decide
  omega

theorem lookup_setStatus_self (items : List (String × QueueItem))
    (id st : String) :
    (setStatus items id st).lookup id = (items.lookup id).map
      (fun it => { it with shot := { it.shot with status := st } }) := by
  induction items with
  | nil => simp [setStatus]
  | cons p t ih =>
    obtain ⟨k, v⟩ := p
    by_cases hk : k = id
    · subst hk
      have h1 : setStatus ((k, v) :: t) k st =
          (k, { v with shot := { v.shot with status := st } }) ::
            setStatus t k st := by
        simp [setStatus]
      rw [h1]
      simp [List.lookup]
    · have hne : (id == k) = false := beq_eq_false_iff_ne.mpr
        (fun hcon => hk hcon.symm)
      have h1 : setStatus ((k, v) :: t) id st =
          (k, v) :: setStatus t id st := by
        simp [setStatus, hk]
      rw [h1]
      simp [List.lookup, hne, ih]

theorem lookup_setStatus_ne (items : List (String × QueueItem))
    (id st other : String) (h : other ≠ id) :
    (setStatus items id st).lookup other = items.lookup other := by
  induction items with
  | nil => simp [setStatus]
  | cons p t ih =>
    obtain ⟨k, v⟩ := p
    by_cases hk : k = id
    · subst hk
      have hne : (other == k) = false := beq_eq_false_iff_ne.mpr h
      have h1 : setStatus ((k, v) :: t) k st =
          (k, { v with shot := { v.shot with status := st } }) ::
            setStatus t k st := by
        simp [setStatus]
      rw [h1]
      simp [List.lookup, hne, ih]
    · have h1 : setStatus ((k, v) :: t) id st =
          (k, v) :: setStatus t id st := by
        simp [setStatus, hk]
      rw [h1]
      by_cases ho : other = k
      · subst ho
        simp [List.lookup]
      · have hne : (other == k) = false := beq_eq_false_iff_ne.mpr ho
        simp [List.lookup, hne, ih]

theorem get?_set_self_phase (ws : List WPhase) :
    ∀ (w : Nat) (v : WPhase), w < ws.length →
      (ws.set w v).get? w = some v := by
  induction ws with
  | nil => intro w v hw; simp at hw
  | cons a t ih =>
    intro w v hw
    cases w with
    | zero => simp
    | succ n => simpa using ih n v (by simpa using hw)

/-- C7: an executor callback that fails (returns failure or raises) for
the item a worker is executing is caught by the worker loop: the commit
step exists (nothing escapes), it marks exactly that item Failed,
appends its id to the failed list, releases the execution slot and frees
the worker, leaves the dispatch queue and every other item's status
untouched, and does not invoke the executor again — so any other
Pending item can still be dispatched and completed afterwards, as the
concrete two-item run (item "a" fails, then item "b" completes)
demonstrates. -/
theorem C7_executor_failure_isolated (s : QState) (w : Nat) (en : HEntry)
    (hw : s.workers.get? w = some (.executing en)) :
    stepFn (.wCommit w false) s = some (failCommit s w en.id) ∧
    (failCommit s w en.id).failed = s.failed ++ [en.id] ∧
    statusOf (failCommit s w en.id) en.id =
      (statusOf s en.id).map (fun _ => "failed") ∧
    (failCommit s w en.id).semPermits = s.semPermits + 1 ∧
    (failCommit s w en.id).queue = s.queue ∧
    (failCommit s w en.id).workers.get? w = some .idle ∧
    (∀ other, other ≠ en.id →
      statusOf (failCommit s w en.id) other = statusOf s other) ∧
    (failCommit s w en.id).execCalls = s.execCalls ∧
    (runEvents c7evs (initQM 1 none)).map (fun t =>
      (statusOf t "a", statusOf t "b", t.failed, t.completed,
        t.execCalls)) =
      some (some "failed", some "completed", ["a"], ["b"], ["a", "b"]) := by
  obtain ⟨hwlt, -⟩ := List.get?_eq_some.mp hw
  refine ⟨?_, rfl, ?_, rfl, rfl, ?_, ?_, rfl, rfl⟩
  · simp only [stepFn]
    rw [hw]
    simp
  · simp only [statusOf, failCommit, lookup_setStatus_self,
      Option.map_map]
    rfl
  · exact get?_set_self_phase s.workers w .idle hwlt
  · intro other hne
    simp only [statusOf, failCommit, lookup_setStatus_ne _ _ _ _ hne]

/-- Witness for C7 at a concrete state: the single worker of `c5mid` is
executing item "a"; the failing commit is enabled and records "a" as
failed while freeing the slot. -/
theorem C7_executor_failure_isolated_witness :
    stepFn (.wCommit 0 false) c5mid = some (failCommit c5mid 0 "a") ∧
    (failCommit c5mid 0 "a").failed = c5mid.failed ++ ["a"] ∧
    (failCommit c5mid 0 "a").semPermits = c5mid.semPermits + 1 := by
  have h := C7_executor_failure_isolated c5mid 0 ⟨0, "a"⟩ (by decide)
  exact ⟨h.1, h.2.1, h.2.2.2.1⟩

theorem lookup_updIf_self (items : List (String × QueueItem))
    (k : String) (f : QueueItem → QueueItem) :
    (items.map fun q => if q.1 = k then (q.1, f q.2) else q).lookup k =
      (items.lookup k).map f := by
  induction items with
  | nil => simp
  | cons p t ih =>
    obtain ⟨k', v⟩ := p
    by_cases hk : k' = k
    · subst hk
      have h1 : ((k', v) :: t).map
          (fun q => if q.1 = k' then (q.1, f q.2) else q) =
          (k', f v) :: t.map (fun q => if q.1 = k' then (q.1, f q.2) else q) := by
        simp
      rw [h1]
      simp [List.lookup]
    · have hne : (k == k') = false := beq_eq_false_iff_ne.mpr
        (fun hcon => hk hcon.symm)
      have h1 : ((k', v) :: t).map
          (fun q => if q.1 = k then (q.1, f q.2) else q) =
          (k', v) :: t.map (fun q => if q.1 = k then (q.1, f q.2) else q) := by
        simp [hk]
      rw [h1]
      simp [List.lookup, hne, ih]

theorem lookup_updIf_ne (items : List (String × QueueItem))
    (k other : String) (f : QueueItem → QueueItem) (h : other ≠ k) :
    (items.map fun q => if q.1 = k then (q.1, f q.2) else q).lookup other =
      items.lookup other := by
  induction items with
  | nil => simp
  | cons p t ih =>
    obtain ⟨k', v⟩ := p
    by_cases hk : k' = k
    · subst hk
      have hne : (other == k') = false := beq_eq_false_iff_ne.mpr h
      have h1 : ((k', v) :: t).map
          (fun q => if q.1 = k' then (q.1, f q.2) else q) =
          (k', f v) :: t.map (fun q => if q.1 = k' then (q.1, f q.2) else q) := by
        simp
      rw [h1]
      simp [List.lookup, hne, ih]
    · have h1 : ((k', v) :: t).map
          (fun q => if q.1 = k then (q.1, f q.2) else q) =
          (k', v) :: t.map (fun q => if q.1 = k then (q.1, f q.2) else q) := by
        simp [hk]
      rw [h1]
      by_cases ho : other = k'
      · subst ho
        simp [List.lookup]
      · have hne : (other == k') = false := beq_eq_false_iff_ne.mpr ho
        simp [List.lookup, hne, ih]

/-- Ids not named by the reorder argument keep their tracked entry. -/
theorem reorder_foldl_lookup_notsel (sel : List (Nat × String)) :
    ∀ (items : List (String × QueueItem)) (id : String),
      id ∉ sel.map Prod.snd →
      (sel.foldl (fun its p => its.map fun q =>
          if q.1 = p.2 then (q.1, { q.2 with priority := (p.1 : Int) })
          else q) items).lookup id = items.lookup id := by
  induction sel with
  | nil => intro items id _; rfl
  | cons hd tl ih =>
    intro items id hid
    simp only [List.map_cons, List.mem_cons] at hid
    push_neg at hid
    simp only [List.foldl_cons]
    rw [ih _ id hid.2]
    exact lookup_updIf_ne items hd.2 id
      (fun it => { it with priority := (hd.1 : Int) }) hid.1

/-- Each id selected by the reorder gets `priority := its position`. -/
theorem reorder_foldl_lookup_sel (sel : List (Nat × String)) :
    ∀ (items : List (String × QueueItem)) (i : Nat) (id : String),
      (sel.map Prod.snd).Nodup → (i, id) ∈ sel →
      (sel.foldl (fun its p => its.map fun q =>
          if q.1 = p.2 then (q.1, { q.2 with priority := (p.1 : Int) })
          else q) items).lookup id =
        (items.lookup id).map
          (fun it => { it with priority := (i : Int) }) := by
  induction sel with
  | nil => intro items i id _ hmem; simp at hmem
  | cons hd tl ih =>
    intro items i id hnd hmem
    obtain ⟨j, k'⟩ := hd
    simp only [List.map_cons] at hnd
    obtain ⟨hk, hnd'⟩ := List.nodup_cons.mp hnd
    simp only [List.foldl_cons]
    rcases List.mem_cons.mp hmem with heq | hmem'
    · injection heq with h1 h2
      subst h1
      subst h2
      rw [reorder_foldl_lookup_notsel tl _ id hk]
      exact lookup_updIf_self items id
        (fun it => { it with priority := (i : Int) })
    · have hid : id ∈ tl.map Prod.snd :=
        List.mem_map.mpr ⟨(i, id), hmem', rfl⟩
      have hne : id ≠ k' := fun hcon => hk (hcon ▸ hid)
      rw [ih _ i id hnd' hmem', lookup_updIf_ne items k' id
        (fun it => { it with priority := (j : Int) }) hne]

/-- C6 amended: `reorder(ids)` (with distinct ids) rebuilds the dispatch
queue out of exactly the argument ids that are tracked and *not Active*
— terminal (Completed/Failed/Cancelled) tracked items are included, not
skipped — assigning priority = position-in-list to each; only untracked
ids and Active ids are skipped. An Active id's tracked entry (priority
and state) is unaffected and it is not placed into the new queue, and
unlisted ids keep their entries (though they too vanish from the
dispatch queue, which is rebuilt from scratch). -/
theorem C6_reorder_semantics (s : QState) (ids : List String)
    (hnd : ids.Nodup) :
    (reorder s ids).active = s.active ∧
    (reorder s ids).queue = ((ids.enum.filter fun p =>
        (s.items.lookup p.2).isSome ∧ p.2 ∉ s.active).map
        (fun p => (⟨(p.1 : Int), p.2⟩ : HEntry))).foldl heappush [] ∧
    (∀ id ∈ s.active, (reorder s ids).items.lookup id =
      s.items.lookup id) ∧
    (∀ id, id ∉ ids → (reorder s ids).items.lookup id =
      s.items.lookup id) ∧
    (∀ i id, (i, id) ∈ (ids.enum.filter fun p =>
        (s.items.lookup p.2).isSome ∧ p.2 ∉ s.active) →
      (reorder s ids).items.lookup id =
        (s.items.lookup id).map
          (fun it => { it with priority := (i : Int) })) := by
  have hselnd : ((ids.enum.filter fun p =>
      (s.items.lookup p.2).isSome ∧ p.2 ∉ s.active).map Prod.snd).Nodup := by
    have h1 : List.Sublist (ids.enum.filter fun p =>
        (s.items.lookup p.2).isSome ∧ p.2 ∉ s.active) ids.enum :=
      List.filter_sublist _
    have h2 := h1.map Prod.snd
    rw [List.enum_map_snd] at h2
    exact hnd.sublist h2
  have hnotsel : ∀ id, id ∉ ids → id ∉ ((ids.enum.filter fun p =>
      (s.items.lookup p.2).isSome ∧ p.2 ∉ s.active).map Prod.snd) := by
    intro id hid hcon
    obtain ⟨p, hp, rfl⟩ := List.mem_map.mp hcon
    have h1 : p ∈ ids.enum := List.mem_of_mem_filter hp
    have h2 : p.2 ∈ ids := by
      have h3 : p.2 ∈ ids.enum.map Prod.snd := List.mem_map.mpr ⟨p, h1, rfl⟩
      rwa [List.enum_map_snd] at h3
    exact hid h2
  have hactsel : ∀ id ∈ s.active, id ∉ ((ids.enum.filter fun p =>
      (s.items.lookup p.2).isSome ∧ p.2 ∉ s.active).map Prod.snd) := by
    intro id hid hcon
    obtain ⟨p, hp, rfl⟩ := List.mem_map.mp hcon
    have := (List.mem_filter.mp hp).2
    simp only [decide_eq_true_eq] at this
    exact this.2 hid
  refine ⟨rfl, ?_, ?_, ?_, ?_⟩
  · simp only [reorder, List.foldl_map]
  · intro id hid
    exact reorder_foldl_lookup_notsel _ s.items id (hactsel id hid)
  · intro id hid
    exact reorder_foldl_lookup_notsel _ s.items id (hnotsel id hid)
  · intro i id hmem
    exact reorder_foldl_lookup_sel _ s.items i id hselnd hmem

/-- Witness for the C6 amended theorem: reordering `["a"]` in the
concrete state whose only tracked item is the completed, non-active
shot "a" (priority 5) re-inserts it at priority 0. -/
theorem C6_reorder_semantics_witness :
    (["a"] : List String).Nodup ∧
    (reorder c6state ["a"]).active = c6state.active := by
  exact ⟨by decide, (C6_reorder_semantics c6state ["a"] (by decide)).1⟩

/-- The item loop of `_load_state` on a well-formed (no malformed entry,
distinct ids) saved item list: terminal entries are skipped, the rest
are appended to the tracked map with status reset to `"queued"` and
pushed onto the dispatch heap. -/
theorem loadItems_good_aux (l : List (Int × Shot)) :
    ∀ s : QState, (∀ q ∈ l, s.items.lookup q.2.id = none) →
      ((l.map fun q => q.2.id).Nodup) →
      (loadItems (l.map fun q => .good q.1 q.2) s).items =
        s.items ++ (l.filter fun q => ! isTerminal q.2.status).map
          (fun q => (q.2.id, ⟨q.1, { q.2 with status := "queued" }, false⟩)) ∧
      (loadItems (l.map fun q => .good q.1 q.2) s).queue =
        ((l.filter fun q => ! isTerminal q.2.status).map
          (fun q => (⟨q.1, q.2.id⟩ : HEntry))).foldl heappush s.queue := by
  induction l with
  | nil => intro s _ _; simp [loadItems]
  | cons q tl ih =>
    intro s hl hnd
    obtain ⟨pri, shot⟩ := q
    rw [List.map_cons] at hnd
    obtain ⟨hm, hnd'⟩ := List.nodup_cons.mp hnd
    simp only [List.map_cons, loadItems]
    by_cases ht : isTerminal shot.status = true
    · rw [if_pos ht]
      have hfil : ((pri, shot) :: tl).filter
          (fun q => ! isTerminal q.2.status) =
          tl.filter (fun q => ! isTerminal q.2.status) := by
        simp [List.filter_cons, ht]
      rw [hfil]
      exact ih s (fun q hq => hl q (List.mem_cons_of_mem _ hq)) hnd'
    · rw [if_neg ht]
      have hlook : s.items.lookup shot.id = none := hl (pri, shot) (by simp)
      have hdin : dinsert s.items shot.id
          ⟨pri, { shot with status := "queued" }, false⟩ =
          s.items ++ [(shot.id, ⟨pri, { shot with status := "queued" },
            false⟩)] := by
        simp [dinsert, hlook]
      rw [hdin]
      have hfil : ((pri, shot) :: tl).filter
          (fun q => ! isTerminal q.2.status) =
          (pri, shot) :: tl.filter (fun q => ! isTerminal q.2.status) := by
        simp [List.filter_cons, ht]
      rw [hfil]
      obtain ⟨hitems, hqueue⟩ := ih
        { s with
          items := s.items ++ [(shot.id,
            ⟨pri, { shot with status := "queued" }, false⟩)]
          queue := heappush s.queue ⟨pri, shot.id⟩ }
        (by
          intro q hq
          have hne : q.2.id ≠ shot.id := by
            intro hcon
            exact hm (hcon ▸ List.mem_map.mpr ⟨q, hq, rfl⟩)
          rw [lookup_append_left_none _ _ _
            (hl q (List.mem_cons_of_mem _ hq))]
          simp [List.lookup, beq_eq_false_iff_ne.mpr hne])
        hnd'
      refine ⟨?_, ?_⟩
      · rw [hitems]
        simp
      · rw [hqueue]
        simp

/-- C3 amended: on construction from a saved durable-state document,
the completed/failed historical id lists are restored verbatim, items
saved in a terminal state (Completed/Failed/Cancelled) are not
re-enqueued, and *every* non-terminally-saved item — including one that
was Active ("processing") at the moment of the save — is re-enqueued
into the Pending set with its status reset to `"queued"`. -/
theorem C3_load_semantics (p : Int) (pj : Option Int)
    (l : List (Int × Shot)) (comp fail : Option (List String))
    (hnd : (l.map fun q => q.2.id).Nodup) :
    (initQM p (some (.parsed
      ⟨pj, l.map fun q => .good q.1 q.2, comp, fail⟩))).completed =
        comp.getD [] ∧
    (initQM p (some (.parsed
      ⟨pj, l.map fun q => .good q.1 q.2, comp, fail⟩))).failed =
        fail.getD [] ∧
    (initQM p (some (.parsed
      ⟨pj, l.map fun q => .good q.1 q.2, comp, fail⟩))).items =
      (l.filter fun q => ! isTerminal q.2.status).map
        (fun q => (q.2.id, ⟨q.1, { q.2 with status := "queued" },
          false⟩)) ∧
    (initQM p (some (.parsed
      ⟨pj, l.map fun q => .good q.1 q.2, comp, fail⟩))).queue =
      ((l.filter fun q => ! isTerminal q.2.status).map
        (fun q => (⟨q.1, q.2.id⟩ : HEntry))).foldl heappush [] := by
  simp only [initQM, loadState]
  obtain ⟨-, -, -, hcompl, hfail, -, -, -, -⟩ :=
    loadItems_scalars (l.map fun q => .good q.1 q.2)
      { parallel_jobs := pj.getD 1
        semPermits := p.toNat
        items := []
        queue := []
        active := []
        completed := comp.getD []
        failed := fail.getD []
        running := false
        workers := []
        execCalls := []
        issued := p.toNat }
  obtain ⟨hitems, hqueue⟩ := loadItems_good_aux l
    { parallel_jobs := pj.getD 1
      semPermits := p.toNat
      items := []
      queue := []
      active := []
      completed := comp.getD []
      failed := fail.getD []
      running := false
      workers := []
      execCalls := []
      issued := p.toNat }
    (fun q _ => rfl) hnd
  refine ⟨hcompl, hfail, ?_, ?_⟩
  · rw [hitems]
    simp
  · rw [hqueue]

/-- Witness for the C3 amended theorem at the concrete document of the
counterexample: the single saved item has status "processing" and is
reloaded as a queued item. -/
theorem C3_load_semantics_witness :
    (([(((0 : Int), { mkShot "a" with status := "processing" }))].map
      (fun q => q.2.id)).Nodup) ∧
    (initQM 1 (some (.parsed
      ⟨some 1, [((0 : Int), { mkShot "a" with status := "processing" })].map
        (fun q => .good q.1 q.2), some ["x"], some ["y"]⟩))).completed =
      ["x"] := by
  refine ⟨by decide, ?_⟩
  exact (C3_load_semantics 1 (some 1)
    [((0 : Int), { mkShot "a" with status := "processing" })]
    (some ["x"]) (some ["y"]) (by decide)).1

/-- C8 amended: persistence failures never propagate. A durable-state
write failure is logged and leaves the in-memory state exactly as if
the write had succeeded (the `try/except` around `_save_state` touches
nothing in memory); a file on which `json.loads` raises yields the same
scheduler as having no file at all (empty recovered state); and a file
that parses but whose item list contains a malformed entry yields a
*partial* recovered state — the entries before the malformed one are
kept, the malformed one and everything after it are dropped — rather
than an empty one. In every case construction returns normally. -/
theorem C8_persistence_errors_contained (op : QState → QState)
    (s : QState) (file : Option RawData) (p : Int)
    (l : List (Int × Shot)) (rest : List RawItem) :
    (∀ writeOk, (mutateAndSave op writeOk s file).1 =
      (mutateAndSave op true s file).1) ∧
    initQM p (some .unparseable) = initQM p none ∧
    (∀ s0, loadItems ((l.map fun q => .good q.1 q.2) ++ .bad :: rest) s0 =
      loadItems (l.map fun q => .good q.1 q.2) s0) := by
  refine ⟨fun _ => rfl, rfl, ?_⟩
  intro s0
  induction l generalizing s0 with
  | nil => simp [loadItems]
  | cons q tl ih =>
    obtain ⟨pri, shot⟩ := q
    simp only [List.map_cons, List.cons_append, loadItems]
    by_cases ht : isTerminal shot.status = true
    · rw [if_pos ht, if_pos ht]
      exact ih _
    · rw [if_neg ht, if_neg ht]
      exact ih _

theorem enqueue_not_tracked (s : QState) (sh : Shot) (p : Int)
    (h : s.items.lookup sh.id = none) :
    (enqueue s sh p).items =
      s.items ++ [(sh.id, ⟨p, { sh with status := "queued" }, false⟩)] ∧
    (enqueue s sh p).active = s.active := by
  have hsome : (s.items.lookup sh.id).isSome = false := by rw [h]; rfl
  constructor <;> simp [enqueue, hsome, dinsert, h]

theorem get_all_items_no_active (s : QState) (h : s.active = []) :
    get_all_items s = sortByKey (fun r => r.priority)
      (s.items.map fun q =>
        ⟨q.1, q.2.shot, q.2.priority, q.2.shot.status⟩) := by
  simp [get_all_items, h]

/-- C9: recovery round-trip. After enqueuing three shots with distinct
ids and persisting, a fresh scheduler constructed from the saved
document — before any mutator runs — reports exactly the same snapshot:
the same three items in the same priority order, all still Pending
(status `"queued"`). (Proved for arbitrary priorities: the stable sort
makes the order reproducible even with ties.) -/
theorem C9_recovery_round_trip (pj pj2 : Int) (sh1 sh2 sh3 : Shot)
    (p1 p2 p3 : Int) (h12 : sh1.id ≠ sh2.id) (h13 : sh1.id ≠ sh3.id)
    (h23 : sh2.id ≠ sh3.id) :
    get_all_items (initQM pj2 (some (.parsed (saveData
      (enqueue (enqueue (enqueue (initQM pj none) sh1 p1) sh2 p2)
        sh3 p3))))) =
      get_all_items (enqueue (enqueue (enqueue (initQM pj none) sh1 p1)
        sh2 p2) sh3 p3) ∧
    (get_all_items (enqueue (enqueue (enqueue (initQM pj none) sh1 p1)
      sh2 p2) sh3 p3)).length = 3 ∧
    (∀ r ∈ get_all_items (enqueue (enqueue (enqueue (initQM pj none)
      sh1 p1) sh2 p2) sh3 p3), r.shown = "queued") := by
  set it1 : QueueItem := ⟨p1, { sh1 with status := "queued" }, false⟩
    with hit1
  set it2 : QueueItem := ⟨p2, { sh2 with status := "queued" }, false⟩
    with hit2
  set it3 : QueueItem := ⟨p3, { sh3 with status := "queued" }, false⟩
    with hit3
  set s3 := enqueue (enqueue (enqueue (initQM pj none) sh1 p1) sh2 p2)
    sh3 p3 with hs3def
  -- the three enqueues hit no duplicate id
  obtain ⟨he1, ha1⟩ := enqueue_not_tracked (initQM pj none) sh1 p1 rfl
  have hs1items : (enqueue (initQM pj none) sh1 p1).items =
      [(sh1.id, it1)] := by
    rw [he1]
    rfl
  have hl2 : (enqueue (initQM pj none) sh1 p1).items.lookup sh2.id =
      none := by
    rw [hs1items]
    simp [List.lookup, beq_eq_false_iff_ne.mpr (fun hc => h12 hc.symm)]
  obtain ⟨he2, ha2⟩ := enqueue_not_tracked _ sh2 p2 hl2
  have hs2items :
      (enqueue (enqueue (initQM pj none) sh1 p1) sh2 p2).items =
      [(sh1.id, it1), (sh2.id, it2)] := by
    rw [he2, hs1items]
    rfl
  have hl3 :
      (enqueue (enqueue (initQM pj none) sh1 p1) sh2 p2).items.lookup
        sh3.id = none := by
    rw [hs2items]
    simp [List.lookup, beq_eq_false_iff_ne.mpr (fun hc => h13 hc.symm),
      beq_eq_false_iff_ne.mpr (fun hc => h23 hc.symm)]
  obtain ⟨he3, ha3⟩ := enqueue_not_tracked _ sh3 p3 hl3
  have hs3items : s3.items =
      [(sh1.id, it1), (sh2.id, it2), (sh3.id, it3)] := by
    rw [hs3def, he3, hs2items]
    rfl
  have hs3active : s3.active = [] := by
    rw [hs3def, ha3, ha2, ha1]
    rfl
  -- the saved document's item list
  have hvals : s3.items.map Prod.snd = [it1, it2, it3] := by
    rw [hs3items]
    rfl
  set sorted := sortByKey (fun it : QueueItem => it.priority)
    [it1, it2, it3] with hsorted
  have hsave : (saveData s3).items =
      (sorted.map fun it => ((it.priority, it.shot) : Int × Shot)).map
        (fun q => RawItem.good q.1 q.2) := by
    simp only [saveData, hvals, List.map_map]
    rfl
  have hpermsorted : List.Perm sorted [it1, it2, it3] :=
    sortByKey_perm _ _
  have hnd : ((sorted.map fun it => ((it.priority, it.shot) : Int × Shot)).map
      (fun q => q.2.id)).Nodup := by
    rw [List.map_map]
    have hmap : List.Perm
        (sorted.map fun it => it.shot.id)
        ([it1, it2, it3].map fun it => it.shot.id) := hpermsorted.map _
    refine hmap.nodup_iff.mpr ?_
    simp only [List.map_cons, List.map_nil, hit1, hit2, hit3]
    simp [List.nodup_cons, h12, h13, h23]
  -- loading the saved document
  obtain ⟨hfitems, -⟩ := loadItems_good_aux
    (sorted.map fun it => ((it.priority, it.shot) : Int × Shot))
    { parallel_jobs := (saveData s3).parallel_jobs.getD 1
      semPermits := pj2.toNat
      items := []
      queue := []
      active := []
      completed := (saveData s3).completed.getD []
      failed := (saveData s3).failed.getD []
      running := false
      workers := []
      execCalls := []
      issued := pj2.toNat }
    (fun q _ => rfl) hnd
  have hfilter : ((sorted.map fun it =>
      ((it.priority, it.shot) : Int × Shot)).filter
        fun q => ! isTerminal q.2.status) =
      sorted.map fun it => ((it.priority, it.shot) : Int × Shot) := by
    refine List.filter_eq_self.mpr ?_
    intro q hq
    obtain ⟨it, hit, rfl⟩ := List.mem_map.mp hq
    rcases List.mem_cons.mp (hpermsorted.mem_iff.mp hit) with rfl | hrest
    · rfl
    rcases List.mem_cons.mp hrest with rfl | hrest2
    · rfl
    rcases List.mem_cons.mp hrest2 with rfl | hrest3
    · rfl
    · simp at hrest3
  have hrebuild : ((sorted.map fun it =>
      ((it.priority, it.shot) : Int × Shot)).map
        (fun q => (q.2.id,
          (⟨q.1, { q.2 with status := "queued" }, false⟩ : QueueItem)))) =
      sorted.map fun it => (it.shot.id, it) := by
    rw [List.map_map]
    refine List.map_congr_left ?_
    intro it hit
    rcases List.mem_cons.mp (hpermsorted.mem_iff.mp hit) with rfl | hrest
    · rfl
    rcases List.mem_cons.mp hrest with rfl | hrest2
    · rfl
    rcases List.mem_cons.mp hrest2 with rfl | hrest3
    · rfl
    · simp at hrest3
  -- the fresh scheduler's tracked map and snapshot
  have hfresh : (initQM pj2 (some (.parsed (saveData s3)))).items =
      sorted.map fun it => (it.shot.id, it) := by
    simp only [initQM, loadState, hsave]
    rw [hfitems, hfilter, hrebuild]
    simp
  have hfreshactive :
      (initQM pj2 (some (.parsed (saveData s3)))).active = [] := by
    simp only [initQM, loadState]
    obtain ⟨-, -, hact, -, -, -, -, -, -⟩ :=
      loadItems_scalars (saveData s3).items
        { parallel_jobs := (saveData s3).parallel_jobs.getD 1
          semPermits := pj2.toNat
          items := []
          queue := []
          active := []
          completed := (saveData s3).completed.getD []
          failed := (saveData s3).failed.getD []
          running := false
          workers := []
          execCalls := []
          issued := pj2.toNat }
    exact hact
  have hsnap3 : get_all_items s3 =
      sortByKey (fun r : SnapRow => r.priority)
        ([it1, it2, it3].map fun it =>
          (⟨it.shot.id, it.shot, it.priority, it.shot.status⟩ :
            SnapRow)) := by
    rw [get_all_items_no_active s3 hs3active, hs3items]
    rfl
  have hsnapF : get_all_items (initQM pj2 (some (.parsed (saveData s3)))) =
      sortByKey (fun r : SnapRow => r.priority)
        (sorted.map fun it =>
          (⟨it.shot.id, it.shot, it.priority, it.shot.status⟩ :
            SnapRow)) := by
    rw [get_all_items_no_active _ hfreshactive, hfresh, List.map_map]
    rfl
  have hcomm : sorted.map (fun it =>
      (⟨it.shot.id, it.shot, it.priority, it.shot.status⟩ : SnapRow)) =
      sortByKey (fun r : SnapRow => r.priority)
        ([it1, it2, it3].map fun it =>
          (⟨it.shot.id, it.shot, it.priority, it.shot.status⟩ :
            SnapRow)) := by
    rw [hsorted]
    exact sortByKey_map (fun it : QueueItem => it.priority)
      (fun r : SnapRow => r.priority) _ (fun it => rfl) [it1, it2, it3]
  refine ⟨?_, ?_, ?_⟩
  · rw [hsnapF, hcomm, sortByKey_idem, hsnap3]
  · rw [hsnap3]
    have := (sortByKey_perm (fun r : SnapRow => r.priority)
      ([it1, it2, it3].map fun it =>
        (⟨it.shot.id, it.shot, it.priority, it.shot.status⟩ :
          SnapRow))).length_eq
    rw [this]
    rfl
  · intro r hr
    rw [hsnap3] at hr
    have hr2 := (sortByKey_perm (fun r : SnapRow => r.priority)
      ([it1, it2, it3].map fun it =>
        (⟨it.shot.id, it.shot, it.priority, it.shot.status⟩ :
          SnapRow))).mem_iff.mp hr
    rcases List.mem_cons.mp hr2 with rfl | hrest
    · rfl
    rcases List.mem_cons.mp hrest with rfl | hrest2
    · rfl
    rcases List.mem_cons.mp hrest2 with rfl | hrest3
    · rfl
    · simp at hrest3

/-- Witness for C9 at three concrete shots with distinct ids and
priorities 5, 1, 3. -/
theorem C9_recovery_round_trip_witness :
    (mkShot "a").id ≠ (mkShot "b").id ∧
    (get_all_items (enqueue (enqueue (enqueue (initQM 1 none)
      (mkShot "a") 5) (mkShot "b") 1) (mkShot "c") 3)).length = 3 := by
  refine ⟨by decide, ?_⟩
  exact (C9_recovery_round_trip 1 1 (mkShot "a") (mkShot "b") (mkShot "c")
    5 1 3 (by decide) (by decide) (by decide)).2.1

/-- C1: a shot cancelled while still Pending is nevertheless dequeued by
the worker loop, which raises `Exception("Cancelled")` into the blanket
`except` handler: the executor callback is indeed never invoked for it,
but — contrary to the claim that it is left Cancelled and never recorded
as Failed — its status ends up `"failed"` and its id is appended to the
failed list. -/
theorem C1_cancelled_pending_item_recorded_failed :
    (runEvents c1evs (initQM 1 none)).map
      (fun s => (statusOf s "a", s.failed, s.execCalls)) =
      some (some "failed", ["a"], []) := by
  rfl

/-- C4 counterexample: from a scheduler constructed with concurrency 2,
`set_parallel(1)` reclaims nothing from the semaphore, so afterwards a
second item is still marked Active while the Active count (1) is already
at the new limit (1) — the run ends with two Active items under
`concurrencyLimit = 1`. -/
theorem C4_two_active_under_limit_one :
    (runEvents c4evs (initQM 2 none)).map
      (fun s => (s.active.length, s.parallel_jobs)) = some (2, 1) := by
  rfl

/-- C6 counterexample: a tracked item in the terminal `"completed"`
state (not Active) is *not* skipped by `reorder` — its priority is
reassigned from 5 to 0 and it is placed back into the dispatch queue. -/
theorem C6_completed_item_reinserted :
    statusOf c6state "a" = some "completed" ∧ c6state.active = [] ∧
    (reorder c6state ["a"]).queue = [⟨0, "a"⟩] ∧
    ((reorder c6state ["a"]).items.lookup "a").map (·.priority) = some 0 := by
  exact ⟨rfl, rfl, rfl, rfl⟩

/-- C3 counterexample: an item saved with status `"processing"` (Active
at the moment of the save) is *not* absent after reload — `_load_state`
only skips terminal statuses, so the item reappears in the Pending set
with status reset to `"queued"` and an entry on the dispatch heap. -/
theorem C3_processing_item_reenqueued :
    statusOf (loadState (.parsed c3data) (initQM 1 none)) "a" =
      some "queued" ∧
    (loadState (.parsed c3data) (initQM 1 none)).queue = [⟨0, "a"⟩] := by
  exact ⟨rfl, rfl⟩

/-- C8 counterexample: a durable-state file that parses but whose second
item entry is malformed does not yield an *empty* recovered state — the
entry loaded before the failure stays, so the scheduler starts with one
Pending item (no exception propagates, as `_load_state` catches it). -/
theorem C8_malformed_file_partial_state :
    (loadState (.parsed c8data) (initQM 1 none)).items.length = 1 ∧
    statusOf (loadState (.parsed c8data) (initQM 1 none)) "a" =
      some "queued" := by
  exact ⟨rfl, rfl⟩

/-- C10: when a durable-state file exists, the loaded `parallel_jobs`
(defaulting to 1 when the field is absent) replaces the constructor
argument and is the number of worker loops `start` spawns, while the
admission semaphore keeps the constructor argument's size — the two can
disagree. -/
theorem C10_file_overrides_concurrency (p : Int) (d : RawData) :
    (initQM p (some (.parsed d))).parallel_jobs = d.parallel_jobs.getD 1 ∧
    (initQM p (some (.parsed d))).semPermits = p.toNat ∧
    (start (initQM p (some (.parsed d)))).workers.length =
      (d.parallel_jobs.getD 1).toNat := by
  simp only [initQM, loadState]
  obtain ⟨hp, hs, -, -, -, hr, hw, -, -⟩ :=
    loadItems_scalars d.items
      { parallel_jobs := d.parallel_jobs.getD 1
        semPermits := p.toNat
        items := []
        queue := []
        active := []
        completed := d.completed.getD []
        failed := d.failed.getD []
        running := false
        workers := []
        execCalls := []
        issued := p.toNat }
  refine ⟨hp, hs, ?_⟩
  simp [start, hr, hw, hp]

end SoraQueue
